import Mathlib

/-!
Verification of the MIST Python binding (`bindings/python/mist/_runner.py`).

The development shallowly embeds the binding's data model and operations:

* `Json` models Python's JSON-compatible runtime values.  Python `float`
  values are modelled by their shortest round-trip decimal text (the text
  `repr` produces, which `json.dumps` emits and which `json.loads` maps back
  to the identical double); finite floats and this text are in bijection, so
  equality of the text model coincides with equality of the doubles.
  Python `dict`s are modelled as insertion-ordered association lists.
* `Json.dumps` models `json.dumps` with its default settings
  (`ensure_ascii=True`, separators `", "` and `": "`).
* `Json.loads` models `json.loads` on strict JSON input; strings are lists
  of Unicode scalar values (Lean `Char`), so lone-surrogate escapes are
  rejected rather than decoded.
* `Message`, `Message.to_json`, `Message.from_json`, `_binary_name`,
  `Client.call` and `Client.send` are translated line by line from
  `_runner.py`.  `Message` fields carry `Json` values because the Python
  dataclass does not enforce its annotations: `from_json` stores whatever
  `dict.get` returns.
* Subprocess execution is external to the binding; it is modelled by a
  `RunOutcome` describing how `subprocess.run` finished (not found /
  timeout / completed with exit status and captured streams).
-/

/-- Decimal digit test on a character. -/
def isDigitC (c : Char) : Bool :=
  c == '0' || c == '1' || c == '2' || c == '3' || c == '4' ||
  c == '5' || c == '6' || c == '7' || c == '8' || c == '9'

/-- Value of a decimal digit character, `10` on non-digits. -/
def digitVal (c : Char) : Nat :=
  if c = '0' then 0 else if c = '1' then 1 else if c = '2' then 2
  else if c = '3' then 3 else if c = '4' then 4 else if c = '5' then 5
  else if c = '6' then 6 else if c = '7' then 7 else if c = '8' then 8
  else if c = '9' then 9 else 10

/-- Character for a decimal digit value below ten. -/
def dChar (d : Nat) : Char :=
  match d with
  | 0 => '0' | 1 => '1' | 2 => '2' | 3 => '3' | 4 => '4'
  | 5 => '5' | 6 => '6' | 7 => '7' | 8 => '8' | 9 => '9'
  | _ => '*'

/-- Lowercase hexadecimal digit character for a value below sixteen,
matching Python's `"\u%04x"` formatting of escapes. -/
def hexChar (d : Nat) : Char :=
  match d with
  | 0 => '0' | 1 => '1' | 2 => '2' | 3 => '3' | 4 => '4'
  | 5 => '5' | 6 => '6' | 7 => '7' | 8 => '8' | 9 => '9'
  | 10 => 'a' | 11 => 'b' | 12 => 'c' | 13 => 'd' | 14 => 'e' | 15 => 'f'
  | _ => '*'

/-- Value of a hexadecimal digit character (either case), `16` on others. -/
def hexVal (c : Char) : Nat :=
  if c = '0' then 0 else if c = '1' then 1 else if c = '2' then 2
  else if c = '3' then 3 else if c = '4' then 4 else if c = '5' then 5
  else if c = '6' then 6 else if c = '7' then 7 else if c = '8' then 8
  else if c = '9' then 9
  else if c = 'a' ∨ c = 'A' then 10 else if c = 'b' ∨ c = 'B' then 11
  else if c = 'c' ∨ c = 'C' then 12 else if c = 'd' ∨ c = 'D' then 13
  else if c = 'e' ∨ c = 'E' then 14 else if c = 'f' ∨ c = 'F' then 15
  else 16

/-- Hexadecimal digit test (either case). -/
def isHexDigit (c : Char) : Bool := decide (hexVal c < 16)

/-- Decimal digits of a positive number, least significant first. -/
def natDigitsRev : Nat → List Char
  | 0 => []
  | n + 1 => dChar ((n + 1) % 10) :: natDigitsRev ((n + 1) / 10)
decreasing_by exact Nat.div_lt_self (Nat.succ_pos n) (by omega)

/-- Decimal representation of a natural number, as Python `str` prints it. -/
def natDigits (n : Nat) : List Char :=
  if n = 0 then ['0'] else (natDigitsRev n).reverse

/-- Decimal representation of an integer, as Python `str` prints it. -/
def intRepr (n : Int) : List Char :=
  if n < 0 then '-' :: natDigits n.natAbs else natDigits n.natAbs

mutual
/-- Python JSON-compatible runtime value.  `float` carries the value's
shortest round-trip decimal text (its Python `repr`); `obj` carries an
insertion-ordered association list modelling a `dict`. -/
inductive Json where
  | null : Json
  | bool (b : Bool) : Json
  | int (n : Int) : Json
  | float (r : List Char) : Json
  | str (s : List Char) : Json
  | arr (xs : JsonList) : Json
  | obj (kvs : JsonObj) : Json
/-- List of JSON values (a Python `list`). -/
inductive JsonList where
  | nil : JsonList
  | cons (hd : Json) (tl : JsonList) : JsonList
/-- Ordered key/value pairs of a JSON object (a Python `dict`). -/
inductive JsonObj where
  | nil : JsonObj
  | cons (k : List Char) (v : Json) (tl : JsonObj) : JsonObj
end

/-- Escape of one character inside a JSON string literal, exactly as
Python's `json.encoder.py_encode_basestring_ascii` emits it: the two
mandatory escapes, the five short control escapes, printable ASCII
verbatim, and `\uXXXX` (with a surrogate pair above `0xFFFF`) otherwise. -/
def escapeChar (c : Char) : List Char :=
  if c = '"' then ['\\', '"']
  else if c = '\\' then ['\\', '\\']
  else if c = '\n' then ['\\', 'n']
  else if c = '\r' then ['\\', 'r']
  else if c = '\t' then ['\\', 't']
  else if c.toNat = 8 then ['\\', 'b']
  else if c.toNat = 12 then ['\\', 'f']
  else if 0x20 ≤ c.toNat ∧ c.toNat ≤ 0x7e then [c]
  else if c.toNat < 0x10000 then
    '\\' :: 'u' :: [hexChar (c.toNat / 4096 % 16), hexChar (c.toNat / 256 % 16),
      hexChar (c.toNat / 16 % 16), hexChar (c.toNat % 16)]
  else
    let v := c.toNat - 0x10000
    let hi := 0xD800 + v / 0x400
    let lo := 0xDC00 + v % 0x400
    '\\' :: 'u' :: [hexChar (hi / 4096 % 16), hexChar (hi / 256 % 16),
      hexChar (hi / 16 % 16), hexChar (hi % 16)] ++
    '\\' :: 'u' :: [hexChar (lo / 4096 % 16), hexChar (lo / 256 % 16),
      hexChar (lo / 16 % 16), hexChar (lo % 16)]

/-- Escape of a whole string body (content between the quotes). -/
def escape : List Char → List Char
  | [] => []
  | c :: t => escapeChar c ++ escape t

mutual
/-- Serialization of a JSON value, exactly as `json.dumps` with its default
settings prints it (item separator `", "`, key separator `": "`,
`ensure_ascii=True`). -/
def Json.dumps : Json → List Char
  | .null => ['n', 'u', 'l', 'l']
  | .bool true => 't' :: ['r', 'u', 'e']
  | .bool false => 'f' :: ['a', 'l', 's', 'e']
  | .int n => intRepr n
  | .float r => r
  | .str s => '"' :: (escape s ++ ['"'])
  | .arr .nil => ['[', ']']
  | .arr (.cons x tl) => '[' :: (JsonList.dumps (.cons x tl) ++ [']'])
  | .obj .nil => ['{', '}']
  | .obj (.cons k v tl) => '{' :: (JsonObj.dumps (.cons k v tl) ++ ['}'])
/-- Serialization of nonempty array items, `", "`-separated. -/
def JsonList.dumps : JsonList → List Char
  | .nil => []
  | .cons x .nil => Json.dumps x
  | .cons x (.cons y tl) =>
    Json.dumps x ++ ',' :: ' ' :: JsonList.dumps (.cons y tl)
/-- Serialization of nonempty object entries, `", "`-separated with `": "`
after each key. -/
def JsonObj.dumps : JsonObj → List Char
  | .nil => []
  | .cons k v .nil => '"' :: (escape k ++ '"' :: ':' :: ' ' :: Json.dumps v)
  | .cons k v (.cons k2 v2 tl) =>
    ('"' :: (escape k ++ '"' :: ':' :: ' ' :: Json.dumps v)) ++
      ',' :: ' ' :: JsonObj.dumps (.cons k2 v2 tl)
end

/-- JSON whitespace characters, the set `json.decoder` skips. -/
def isJsonWs (c : Char) : Bool := c == ' ' || c == '\t' || c == '\n' || c == '\r'

/-- Drop leading JSON whitespace. -/
def skipWs (l : List Char) : List Char := l.dropWhile isJsonWs

/-- Longest leading run of decimal digits, and the remainder. -/
def scanDigits : List Char → List Char × List Char
  | [] => ([], [])
  | c :: t =>
    if isDigitC c then
      let p := scanDigits t
      (c :: p.1, p.2)
    else ([], c :: t)

/-- Integer part of a JSON number: `0`, or a nonzero digit followed by
digits (the strict grammar `json.scanner.NUMBER_RE` uses, which rejects
leading zeros). -/
def scanInt : List Char → Option (List Char × List Char)
  | [] => none
  | c :: t =>
    if c = '0' then some (['0'], t)
    else if isDigitC c then
      let p := scanDigits t
      some (c :: p.1, p.2)
    else none

/-- Optional fraction part `.digits`; consumes nothing when absent, exactly
like the optional regex group. -/
def scanFrac (l : List Char) : List Char × List Char :=
  match l with
  | [] => ([], [])
  | c :: t =>
    if c = '.' then
      let p := scanDigits t
      if p.1 = [] then ([], c :: t) else (c :: p.1, p.2)
    else ([], c :: t)

/-- Optional exponent part `[eE][+-]?digits`; consumes nothing when
absent. -/
def scanExp (l : List Char) : List Char × List Char :=
  match l with
  | [] => ([], [])
  | c :: t =>
    if c = 'e' ∨ c = 'E' then
      match t with
      | [] => ([], c :: t)
      | s :: t2 =>
        if s = '+' ∨ s = '-' then
          let p := scanDigits t2
          if p.1 = [] then ([], c :: t) else (c :: s :: p.1, p.2)
        else
          let p := scanDigits t
          if p.1 = [] then ([], c :: t) else (c :: p.1, p.2)
    else ([], c :: t)

/-- Unsigned part of a number token: integer part, then the optional
fraction and exponent parts. -/
def scanNumTail (l : List Char) : Option (List Char × List Char) :=
  match scanInt l with
  | none => none
  | some (ip, r1) =>
    let fp := scanFrac r1
    let ep := scanExp fp.2
    some (ip ++ fp.1 ++ ep.1, ep.2)

/-- Maximal JSON number token at the head of the input, per the grammar
`-?(0|[1-9][0-9]*)(\.[0-9]+)?([eE][+-]?[0-9]+)?`. -/
def scanNumber (l : List Char) : Option (List Char × List Char) :=
  match l with
  | [] => none
  | c :: t =>
    if c = '-' then
      match scanNumTail t with
      | none => none
      | some (tok, r) => some ('-' :: tok, r)
    else scanNumTail (c :: t)

/-- Presence of a fraction or exponent marker in a number token; Python's
scanner builds a `float` exactly when one is present, an `int` otherwise. -/
def hasExpDot (tok : List Char) : Bool :=
  tok.any (fun c => c == '.' || c == 'e' || c == 'E')

/-- Value of a digit string, most significant first, from an accumulator. -/
def digitsValAcc : Nat → List Char → Nat
  | a, [] => a
  | a, c :: t => digitsValAcc (10 * a + digitVal c) t

/-- Value of a digit string, most significant first. -/
def digitsVal (l : List Char) : Nat := digitsValAcc 0 l

/-- Integer value of a signed digit token, modelling `int(token)`. -/
def tokValue (tok : List Char) : Int :=
  match tok with
  | [] => 0
  | c :: t => if c = '-' then -(digitsVal t : Int) else (digitsVal (c :: t) : Int)

/-- Number parse: scan the token, then build an `int` or a `float` from it
the way Python's scanner applies `parse_int`/`parse_float`; the `float`
keeps the token text (see the `Json.float` model). -/
def parseNumber (l : List Char) : Option (Json × List Char) :=
  match scanNumber l with
  | none => none
  | some (tok, rest) =>
    if hasExpDot tok then some (.float tok, rest)
    else some (.int (tokValue tok), rest)

/-- Short backslash escapes accepted inside JSON strings. -/
def simpleEsc (e : Char) : Option Char :=
  if e = '"' then some '"'
  else if e = '\\' then some '\\'
  else if e = '/' then some '/'
  else if e = 'b' then some (Char.ofNat 8)
  else if e = 'f' then some (Char.ofNat 12)
  else if e = 'n' then some '\n'
  else if e = 'r' then some '\r'
  else if e = 't' then some '\t'
  else none

/-- String-body parse, after the opening quote: plain characters up to the
closing quote, short escapes, and `\uXXXX` escapes with surrogate-pair
combination.  Control characters are rejected (`strict=True`).  Lone
surrogate escapes are rejected because the model's strings carry Unicode
scalar values.  The fuel bounds the recursion; each step consumes at least
one input character, so `length + 1` fuel never runs out. -/
def parseStringBody : Nat → List Char → Option (List Char × List Char)
  | 0, _ => none
  | _ + 1, [] => none
  | f + 1, c :: rest =>
    if c = '"' then some ([], rest)
    else if c = '\\' then
      match rest with
      | 'u' :: a :: b :: c2 :: d :: rest3 =>
        if isHexDigit a && isHexDigit b && isHexDigit c2 && isHexDigit d then
          let n := hexVal a * 4096 + hexVal b * 256 + hexVal c2 * 16 + hexVal d
          if 0xD800 ≤ n ∧ n ≤ 0xDBFF then
            match rest3 with
            | '\\' :: 'u' :: a2 :: b2 :: c3 :: d2 :: rest4 =>
              if isHexDigit a2 && isHexDigit b2 && isHexDigit c3 && isHexDigit d2 then
                let m := hexVal a2 * 4096 + hexVal b2 * 256 + hexVal c3 * 16 + hexVal d2
                if 0xDC00 ≤ m ∧ m ≤ 0xDFFF then
                  match parseStringBody f rest4 with
                  | some (s, r) =>
                    some (Char.ofNat (0x10000 + (n - 0xD800) * 0x400 + (m - 0xDC00)) :: s, r)
                  | none => none
                else none
              else none
            | _ => none
          else if 0xDC00 ≤ n ∧ n ≤ 0xDFFF then none
          else
            match parseStringBody f rest3 with
            | some (s, r) => some (Char.ofNat n :: s, r)
            | none => none
        else none
      | e :: rest2 =>
        match simpleEsc e with
        | some c2 =>
          match parseStringBody f rest2 with
          | some (s, r) => some (c2 :: s, r)
          | none => none
        | none => none
      | [] => none
    else if c.toNat < 0x20 then none
    else
      match parseStringBody f rest with
      | some (s, r) => some (c :: s, r)
      | none => none

/-- Insertion into an ordered association list with Python `dict`
semantics: an existing key keeps its position and takes the new value, a
new key is appended. -/
def JsonObj.insertPy : JsonObj → List Char → Json → JsonObj
  | .nil, k, v => .cons k v .nil
  | .cons k' v' tl, k, v =>
    if k' = k then .cons k' v tl else .cons k' v' (tl.insertPy k v)

/-- Fold of `insertPy` over parsed pairs, from an accumulator. -/
def buildPyAux : JsonObj → JsonObj → JsonObj
  | acc, .nil => acc
  | acc, .cons k v tl => buildPyAux (acc.insertPy k v) tl

/-- Python `dict` built from ordered key/value pairs: later duplicates
overwrite earlier values in place. -/
def buildPy (kvs : JsonObj) : JsonObj := buildPyAux .nil kvs

mutual
/-- Value parse at the head of the input (leading whitespace already
skipped), following `json.scanner.py_make_scanner`: strings, objects,
arrays, the three keywords, and numbers.  The fuel bounds nesting. -/
def parseVal : Nat → List Char → Option (Json × List Char)
  | 0, _ => none
  | f + 1, l =>
    match l with
    | [] => none
    | c :: t =>
      if c = '"' then
        match parseStringBody (t.length + 1) t with
        | some (s, r) => some (.str s, r)
        | none => none
      else if c = '[' then
        match skipWs t with
        | ']' :: r => some (.arr .nil, r)
        | t1 =>
          match parseArrItems f t1 with
          | some (xs, r) => some (.arr xs, r)
          | none => none
      else if c = '{' then
        match skipWs t with
        | '}' :: r => some (.obj .nil, r)
        | t1 =>
          match parseObjItems f t1 with
          | some (kvs, r) => some (.obj (buildPy kvs), r)
          | none => none
      else if c = 't' then
        match t with
        | 'r' :: 'u' :: 'e' :: t2 => some (.bool true, t2)
        | _ => none
      else if c = 'f' then
        match t with
        | 'a' :: 'l' :: 's' :: 'e' :: t2 => some (.bool false, t2)
        | _ => none
      else if c = 'n' then
        match t with
        | 'u' :: 'l' :: 'l' :: t2 => some (.null, t2)
        | _ => none
      else parseNumber (c :: t)
/-- Items of a nonempty array: one value, then either `,` and the rest or
the closing bracket. -/
def parseArrItems : Nat → List Char → Option (JsonList × List Char)
  | 0, _ => none
  | f + 1, l =>
    match parseVal f l with
    | none => none
    | some (v, r) =>
      match skipWs r with
      | ',' :: r2 =>
        match parseArrItems f (skipWs r2) with
        | some (tl, r3) => some (.cons v tl, r3)
        | none => none
      | ']' :: r2 => some (.cons v .nil, r2)
      | _ => none
/-- Entries of a nonempty object: a quoted key, `:`, a value, then either
`,` and the rest or the closing brace. -/
def parseObjItems : Nat → List Char → Option (JsonObj × List Char)
  | 0, _ => none
  | f + 1, l =>
    match l with
    | '"' :: t =>
      match parseStringBody (t.length + 1) t with
      | none => none
      | some (k, r) =>
        match skipWs r with
        | ':' :: r2 =>
          match parseVal f (skipWs r2) with
          | none => none
          | some (v, r3) =>
            match skipWs r3 with
            | ',' :: r4 =>
              match parseObjItems f (skipWs r4) with
              | some (tl, r5) => some (.cons k v tl, r5)
              | none => none
            | '}' :: r4 => some (.cons k v .nil, r4)
            | _ => none
        | _ => none
    | _ => none
end

/-- Model of `json.loads` on strict JSON text: skip surrounding
whitespace, parse one value, and require the remainder to be empty
(`json.decoder` raises `Extra data` otherwise).  `none` models a raised
`JSONDecodeError`.  The fuel `2·length + 2` exceeds the nesting any input
of this length can produce. -/
def Json.loads (l : List Char) : Option Json :=
  match parseVal (2 * l.length + 2) (skipWs l) with
  | some (v, r) => if skipWs r = [] then some v else none
  | none => none

deriving instance DecidableEq for Json

/-- Lookup with a default, modelling Python `dict.get(key, default)` on the
association-list model (keys are unique in any list a `dict` produces). -/
def JsonObj.get : JsonObj → List Char → Json → Json
  | .nil, _, d => d
  | .cons k' v tl, k, d => if k' = k then v else tl.get k d

/-- Membership of a key, modelling `key in dict`. -/
def JsonObj.hasKey : JsonObj → List Char → Bool
  | .nil, _ => false
  | .cons k' _ tl, k => k' == k || tl.hasKey k

/-- A MIST protocol message, the `@dataclass Message` of `_runner.py`.
Fields hold `Json` values because the dataclass does not enforce its
annotations — `from_json` stores whatever `dict.get` returns.  The field
defaults are the dataclass defaults. -/
structure Message where
  version : Json := Json.str ['1']
  id : Json := Json.str []
  source : Json := Json.str []
  type : Json := Json.str []
  timestamp_ns : Json := Json.int 0
  payload : Json := Json.obj .nil
deriving DecidableEq

/-- Serialization of a message: `json.dumps` of the six-field dict literal
in source order, from `Message.to_json`. -/
def Message.to_json (m : Message) : List Char :=
  Json.dumps (Json.obj
    (.cons "version".data m.version
      (.cons "id".data m.id
        (.cons "source".data m.source
          (.cons "type".data m.type
            (.cons "timestamp_ns".data m.timestamp_ns
              (.cons "payload".data m.payload .nil)))))))

/-- Exceptions `Message.from_json` can raise: `json.loads` raising
`JSONDecodeError` on invalid JSON, or `d.get` raising `AttributeError`
when the parsed top-level value is not a dict. -/
inductive DecodeError where
  | invalidJson : DecodeError
  | notAnObject : DecodeError
deriving DecidableEq

/-- Deserialization of a message, from `Message.from_json`: parse the
text, then read each field from the dict with its default. -/
def Message.from_json (data : List Char) : Except DecodeError Message :=
  match Json.loads data with
  | none => .error .invalidJson
  | some (Json.obj d) =>
    .ok {
      version := d.get "version".data (Json.str ['1'])
      id := d.get "id".data (Json.str [])
      source := d.get "source".data (Json.str [])
      type := d.get "type".data (Json.str [])
      timestamp_ns := d.get "timestamp_ns".data (Json.int 0)
      payload := d.get "payload".data (Json.obj .nil) }
  | some _ => .error .notAnObject

/-- Python `str.strip()` whitespace set (ASCII part). -/
def isPyWs (c : Char) : Bool :=
  c == ' ' || c == '\t' || c == '\n' || c == '\r' || c == '\x0b' || c == '\x0c'

/-- Python `str.strip()`: remove leading and trailing whitespace. -/
def pyStrip (l : List Char) : List Char :=
  ((l.dropWhile isPyWs).reverse.dropWhile isPyWs).reverse

/-- Python `str.split("\n")`: split on every newline, keeping empty
pieces; the empty string yields one empty piece. -/
def pySplitNl : List Char → List (List Char)
  | [] => [[]]
  | c :: t =>
    if c = '\n' then [] :: pySplitNl t
    else
      match pySplitNl t with
      | [] => [[c]]
      | h :: r => (c :: h) :: r

/-- Result of `subprocess.run` for one spawned process, external to the
binding: the binary was not launchable (`FileNotFoundError`), the timeout
expired (`TimeoutExpired`), or the process completed with an exit status
and captured output and error streams. -/
inductive RunOutcome where
  | fileNotFound : RunOutcome
  | timedOut : RunOutcome
  | completed (returncode : Int) (stdout : List Char) (stderr : List Char) : RunOutcome
deriving DecidableEq

/-- Dispatch client state: the resolved binary path and the configured
timeout appear in `call`'s error messages only through their formatted
text, carried here (`_find_binary` and float formatting are external). -/
structure Client where
  binaryRepr : List Char
  timeoutRepr : List Char

/-- Model of `Client.call`: run the tool and return captured stdout, or
raise `MistError` (the error text) per the three failure branches of
`_runner.py` lines 100–118.  `run` is the spawned process's behavior as a
function of the argument list and stdin. -/
def Client.call (c : Client) (run : List String → Option (List Char) → RunOutcome)
    (args : List String) (stdin : Option (List Char)) : Except (List Char) (List Char) :=
  match run args stdin with
  | .fileNotFound => .error ("binary not found: ".data ++ c.binaryRepr)
  | .timedOut => .error ("timeout after ".data ++ c.timeoutRepr ++ "s".data)
  | .completed rc out err =>
    if rc ≠ 0 then
      .error (if pyStrip err ≠ [] then pyStrip err else "exit code ".data ++ intRepr rc)
    else .ok out

/-- Exceptions `Client.send` can raise: a `MistError` propagated from
`call`, or a decode exception from `Message.from_json`. -/
inductive SendError where
  | callFailed (msg : List Char) : SendError
  | decodeFailed (e : DecodeError) : SendError
deriving DecidableEq

/-- Model of `Client.send`: build the request message, run the tool over
the stdio transport, and decode the last line of stripped stdout, or
return a default message when stdout strips to nothing
(lines 120–126 of `_runner.py`). -/
def Client.send (c : Client) (run : List String → Option (List Char) → RunOutcome)
    (msg_type : List Char) (payload : Json) (source : List Char) : Except SendError Message :=
  let msg : Message := { source := Json.str source, type := Json.str msg_type, payload := payload }
  match c.call run ["--transport", "stdio"] (some msg.to_json) with
  | .error e => .error (.callFailed e)
  | .ok out =>
    if pyStrip out ≠ [] then
      match Message.from_json ((pySplitNl (pyStrip out)).getLastD []) with
      | .ok m => .ok m
      | .error e => .error (.decodeFailed e)
    else .ok {}

/-- ASCII lowercase of a string, modelling `str.lower()` on the ASCII
names `platform.system()` and `platform.machine()` return. -/
def pyLower (s : String) : String := ⟨s.data.map Char.toLower⟩

/-- Architecture alias table of `_binary_name`. -/
def arch_map : List (String × String) :=
  [("x86_64", "amd64"), ("amd64", "amd64"), ("arm64", "arm64"), ("aarch64", "arm64")]

/-- Model of `_binary_name`, with the ambient `platform.system()` and
`platform.machine()` results as explicit inputs. -/
def _binary_name (tool rawSystem rawMachine : String) : String :=
  let system := pyLower rawSystem
  let machine := pyLower rawMachine
  let arch := ((arch_map.lookup machine).getD machine)
  let ext := if system = "windows" then ".exe" else ""
  tool ++ "-" ++ system ++ "-" ++ arch ++ ext

/-- Digit characters evaluate back to their value. -/
theorem digitVal_dChar {d : Nat} (h : d < 10) : digitVal (dChar d) = d := by
  interval_cases d <;> rfl

/-- Digit characters pass the digit test. -/
theorem isDigitC_dChar {d : Nat} (h : d < 10) : isDigitC (dChar d) = true := by
  interval_cases d <;> rfl

/-- A character passing the digit test is one of the ten digits. -/
theorem eq_dChar_of_isDigitC {c : Char} (h : isDigitC c = true) :
    digitVal c < 10 ∧ dChar (digitVal c) = c := by
  simp only [isDigitC, Bool.or_eq_true, beq_iff_eq] at h
  rcases h with ((((((((h | h) | h) | h) | h) | h) | h) | h) | h) | h <;> subst h <;>
    exact ⟨by decide, rfl⟩

/-- Digit characters are not the minus sign. -/
theorem isDigitC_ne_minus {c : Char} (h : isDigitC c = true) : c ≠ '-' := by
  simp only [isDigitC, Bool.or_eq_true, beq_iff_eq] at h
  rcases h with ((((((((h | h) | h) | h) | h) | h) | h) | h) | h) | h <;> subst h <;> decide

/-- Hexadecimal digit characters evaluate back to their value. -/
theorem hexVal_hexChar {d : Nat} (h : d < 16) : hexVal (hexChar d) = d := by
  interval_cases d <;> rfl

/-- Hexadecimal digit characters pass the hex test. -/
theorem isHexDigit_hexChar {d : Nat} (h : d < 16) : isHexDigit (hexChar d) = true := by
  interval_cases d <;> rfl

/-- Nonzero digit characters differ from the zero character. -/
theorem dChar_ne_zero {d : Nat} (h0 : 0 < d) (h : d < 10) : dChar d ≠ '0' := by
  interval_cases d <;> decide

/-- Unfolding of `natDigitsRev` on a positive number. -/
theorem natDigitsRev_eq {n : Nat} (h : 0 < n) :
    natDigitsRev n = dChar (n % 10) :: natDigitsRev (n / 10) := by
  cases n with
  | zero => omega
  | succ m => rw [natDigitsRev]

/-- Every character `natDigitsRev` emits is a digit. -/
theorem natDigitsRev_digits : ∀ n c, c ∈ natDigitsRev n → isDigitC c = true := by
  intro n
  induction n using Nat.strong_induction_on with
  | _ n ih =>
    intro c hc
    cases n with
    | zero => simp [natDigitsRev] at hc
    | succ m =>
      rw [natDigitsRev_eq (Nat.succ_pos m)] at hc
      rcases List.mem_cons.mp hc with h | h
      · subst h
        exact isDigitC_dChar (Nat.mod_lt _ (by omega))
      · exact ih ((m + 1) / 10) (Nat.div_lt_self (Nat.succ_pos m) (by omega)) c h

/-- The most significant digit of a positive number is nonzero. -/
theorem natDigitsRev_getLast? : ∀ n, 0 < n →
    ∃ d, 0 < d ∧ d < 10 ∧ (natDigitsRev n).getLast? = some (dChar d) := by
  intro n
  induction n using Nat.strong_induction_on with
  | _ n ih =>
    intro hn
    rw [natDigitsRev_eq hn]
    by_cases h10 : n < 10
    · refine ⟨n % 10, ?_, Nat.mod_lt _ (by omega), ?_⟩
      · omega
      · have h0 : n / 10 = 0 := Nat.div_eq_of_lt h10
        rw [h0]
        simp [natDigitsRev]
    · have hpos : 0 < n / 10 := Nat.div_pos (by omega) (by omega)
      obtain ⟨d, hd0, hd10, hlast⟩ := ih (n / 10) (Nat.div_lt_self hn (by omega)) hpos
      refine ⟨d, hd0, hd10, ?_⟩
      rw [List.getLast?_cons, hlast]
      have : natDigitsRev (n / 10) ≠ [] := by
        rw [natDigitsRev_eq hpos]
        exact List.cons_ne_nil _ _
      cases heq : natDigitsRev (n / 10) with
      | nil => exact absurd heq this
      | cons a t =>
        rw [heq] at hlast
        simp [List.getLast?_cons, hlast]

/-- Accumulator form of digit evaluation distributes over append. -/
theorem digitsValAcc_append (a : Nat) (l1 l2 : List Char) :
    digitsValAcc a (l1 ++ l2) = digitsValAcc (digitsValAcc a l1) l2 := by
  induction l1 generalizing a with
  | nil => rfl
  | cons c t ih => simp [digitsValAcc, ih]

/-- Evaluating one extra trailing digit multiplies by ten and adds it. -/
theorem digitsVal_concat (l : List Char) (c : Char) :
    digitsVal (l ++ [c]) = 10 * digitsVal l + digitVal c := by
  simp [digitsVal, digitsValAcc_append, digitsValAcc]

/-- The reversed digit list of `natDigitsRev` evaluates back to the
number. -/
theorem digitsVal_natDigitsRev_reverse : ∀ n, digitsVal (natDigitsRev n).reverse = n := by
  intro n
  induction n using Nat.strong_induction_on with
  | _ n ih =>
    cases n with
    | zero => simp [natDigitsRev, digitsVal, digitsValAcc]
    | succ m =>
      rw [natDigitsRev_eq (Nat.succ_pos m), List.reverse_cons, digitsVal_concat,
        ih ((m + 1) / 10) (Nat.div_lt_self (Nat.succ_pos m) (by omega)),
        digitVal_dChar (Nat.mod_lt _ (by omega))]
      omega

/-- Printed digits of a natural number evaluate back to it. -/
theorem digitsVal_natDigits (n : Nat) : digitsVal (natDigits n) = n := by
  unfold natDigits
  by_cases h : n = 0
  · subst h; rfl
  · rw [if_neg h]; exact digitsVal_natDigitsRev_reverse n

/-- Every character of `natDigits` is a digit. -/
theorem natDigits_digits : ∀ n c, c ∈ natDigits n → isDigitC c = true := by
  intro n c hc
  unfold natDigits at hc
  by_cases h : n = 0
  · rw [if_pos h] at hc
    simp at hc
    subst hc; rfl
  · rw [if_neg h] at hc
    exact natDigitsRev_digits n c (List.mem_reverse.mp hc)

/-- Shape of `natDigits` on a positive number: a nonzero digit followed by
digits. -/
theorem natDigits_shape {n : Nat} (h : 0 < n) :
    ∃ c t, natDigits n = c :: t ∧ isDigitC c = true ∧ c ≠ '0' ∧
      ∀ x ∈ t, isDigitC x = true := by
  obtain ⟨d, hd0, hd10, hlast⟩ := natDigitsRev_getLast? n h
  have hshape : natDigits n = (natDigitsRev n).reverse := by
    unfold natDigits
    rw [if_neg (by omega)]
  have hhead : (natDigits n).head? = some (dChar d) := by
    rw [hshape, List.head?_reverse, hlast]
  cases heq : natDigits n with
  | nil => rw [heq] at hhead; simp at hhead
  | cons c t =>
    rw [heq] at hhead
    simp at hhead
    refine ⟨c, t, rfl, ?_, ?_, ?_⟩
    · subst hhead
      exact isDigitC_dChar hd10
    · subst hhead
      exact dChar_ne_zero hd0 hd10
    · intro x hx
      exact natDigits_digits n x (by rw [heq]; exact List.mem_cons_of_mem c hx)

/-- Head-of-list digit test. -/
def headDigit : List Char → Bool
  | [] => false
  | c :: _ => isDigitC c

/-- Head-of-list test for one specific character. -/
def headIs (x : Char) : List Char → Bool
  | [] => false
  | c :: _ => c == x

/-- Characters that can follow a complete serialized value: end of input,
a separator comma, or a closing bracket or brace. -/
def isStop : List Char → Bool
  | [] => true
  | c :: _ => c == ',' || c == ']' || c == '}'

/-- Stop characters extend no number token component. -/
theorem isStop_spread {ext : List Char} (h : isStop ext = true) :
    headDigit ext = false ∧ headIs '.' ext = false ∧ headIs 'e' ext = false ∧
      headIs 'E' ext = false ∧ headIs '+' ext = false ∧ headIs '-' ext = false := by
  cases ext with
  | nil => exact ⟨rfl, rfl, rfl, rfl, rfl, rfl⟩
  | cons c t =>
    simp only [isStop, Bool.or_eq_true, beq_iff_eq] at h
    rcases h with (h | h) | h <;> subst h <;>
      exact ⟨rfl, rfl, rfl, rfl, rfl, rfl⟩

/-- A list whose head is not a digit scans to no digits. -/
theorem scanDigits_of_headDigit_false {l : List Char} (h : headDigit l = false) :
    scanDigits l = ([], l) := by
  cases l with
  | nil => rfl
  | cons c t =>
    simp only [headDigit] at h
    simp [scanDigits, h]

/-- An empty digit scan leaves the input unchanged. -/
theorem scanDigits_fst_nil {l : List Char} (h : (scanDigits l).1 = []) :
    scanDigits l = ([], l) ∧ headDigit l = false := by
  cases l with
  | nil => exact ⟨rfl, rfl⟩
  | cons c t =>
    by_cases hd : isDigitC c = true
    · simp [scanDigits, hd] at h
    · have hd' : isDigitC c = false := by
        cases hval : isDigitC c
        · rfl
        · exact absurd hval hd
      exact ⟨by simp [scanDigits, hd'], by simp [headDigit, hd']⟩

/-- Characters of a digit scan are digits. -/
theorem scanDigits_digits : ∀ l ds r, scanDigits l = (ds, r) →
    ∀ c ∈ ds, isDigitC c = true := by
  intro l
  induction l with
  | nil =>
    intro ds r h c hc
    simp [scanDigits] at h
    rcases h with ⟨h1, _⟩
    subst h1
    simp at hc
  | cons a t ih =>
    intro ds r h c hc
    by_cases hd : isDigitC a = true
    · simp only [scanDigits, hd, if_true] at h
      have h1 : ds = a :: (scanDigits t).1 := by
        have := congrArg Prod.fst h
        simpa using this.symm
      subst h1
      rcases List.mem_cons.mp hc with h | h
      · subst h; exact hd
      · exact ih _ _ rfl c h
    · have hd' : isDigitC a = false := Bool.eq_false_iff.mpr hd
      simp only [scanDigits, hd', if_false] at h
      have h1 : ds = [] := by
        have := congrArg Prod.fst h
        simpa using this.symm
      subst h1
      simp at hc

/-- Appending input that starts with a non-digit does not change a digit
scan, beyond carrying the appended part in the remainder. -/
theorem scanDigits_append : ∀ l ds r ext, scanDigits l = (ds, r) →
    (r = [] → headDigit ext = false) →
    scanDigits (l ++ ext) = (ds, r ++ ext) := by
  intro l
  induction l with
  | nil =>
    intro ds r ext h hext
    simp [scanDigits] at h
    rcases h with ⟨h1, h2⟩
    subst h1; subst h2
    simpa using scanDigits_of_headDigit_false (hext rfl)
  | cons a t ih =>
    intro ds r ext h hext
    by_cases hd : isDigitC a = true
    · simp only [scanDigits, hd, if_true] at h
      have h1 : ds = a :: (scanDigits t).1 := by
        have := congrArg Prod.fst h
        simpa using this.symm
      have h2 : r = (scanDigits t).2 := by
        have := congrArg Prod.snd h
        simpa using this.symm
      subst h1; subst h2
      have ht := ih (scanDigits t).1 (scanDigits t).2 ext rfl hext
      rw [List.cons_append]
      simp only [scanDigits, hd, if_true, ht]
    · have hd' : isDigitC a = false := Bool.eq_false_iff.mpr hd
      simp only [scanDigits, hd', if_false] at h
      have h1 : ds = [] := by
        have := congrArg Prod.fst h
        simpa using this.symm
      have h2 : r = a :: t := by
        have := congrArg Prod.snd h
        simpa using this.symm
      subst h1; subst h2
      rw [List.cons_append]
      simp [scanDigits, hd']

/-- A digit run followed by a non-digit scans to exactly that run. -/
theorem scanDigits_of_digits : ∀ ds rest, (∀ c ∈ ds, isDigitC c = true) →
    headDigit rest = false → scanDigits (ds ++ rest) = (ds, rest) := by
  intro ds
  induction ds with
  | nil =>
    intro rest _ hrest
    simpa using scanDigits_of_headDigit_false hrest
  | cons a t ih =>
    intro rest hds hrest
    have ha : isDigitC a = true := hds a (List.mem_cons_self a t)
    rw [List.cons_append]
    simp only [scanDigits, ha, if_true,
      ih rest (fun c hc => hds c (List.mem_cons_of_mem a hc)) hrest]

/-- Appending non-extending input to a scanned integer part only carries
it into the remainder. -/
theorem scanInt_append {l ip r ext : List Char} (h : scanInt l = some (ip, r))
    (hext : r = [] → headDigit ext = false) :
    scanInt (l ++ ext) = some (ip, r ++ ext) := by
  cases l with
  | nil => simp [scanInt] at h
  | cons c t =>
    by_cases h0 : c = '0'
    · simp only [scanInt, h0, if_true] at h ⊢
      rcases Option.some.injEq .. ▸ h with h'
      have h1 : ip = ['0'] := by
        have := congrArg Prod.fst (Option.some.inj h)
        simpa using this.symm
      have h2 : r = t := by
        have := congrArg Prod.snd (Option.some.inj h)
        simpa using this.symm
      subst h1; subst h2
      rw [List.cons_append]
      simp [scanInt]
    · by_cases hd : isDigitC c = true
      · simp only [scanInt, h0, if_false, hd, if_true] at h
        have h1 : ip = c :: (scanDigits t).1 := by
          have := congrArg Prod.fst (Option.some.inj h)
          simpa using this.symm
        have h2 : r = (scanDigits t).2 := by
          have := congrArg Prod.snd (Option.some.inj h)
          simpa using this.symm
        subst h1; subst h2
        have ht := scanDigits_append t (scanDigits t).1 (scanDigits t).2 ext rfl hext
        rw [List.cons_append]
        simp [scanInt, h0, hd, ht]
      · have hd' : isDigitC c = false := Bool.eq_false_iff.mpr hd
        simp [scanInt, h0, hd'] at h

/-- Appending input that starts with no digit and no dot to a scanned
fraction part only carries it into the remainder. -/
theorem scanFrac_append {l f r ext : List Char} (h : scanFrac l = (f, r))
    (hD : headDigit ext = false) (hDot : headIs '.' ext = false) :
    scanFrac (l ++ ext) = (f, r ++ ext) := by
  cases l with
  | nil =>
    simp [scanFrac] at h
    rcases h with ⟨h1, h2⟩
    subst h1; subst h2
    cases ext with
    | nil => rfl
    | cons c t =>
      simp only [headIs] at hDot
      rw [beq_eq_false_iff_ne] at hDot
      simp [scanFrac, hDot]
  | cons c t =>
    by_cases hc : c = '.'
    · subst hc
      by_cases hnil : (scanDigits t).1 = []
      · obtain ⟨hsd, hhd⟩ := scanDigits_fst_nil hnil
        simp only [scanFrac, if_true, hnil, if_pos rfl] at h
        have h1 : f = [] := by
          have := congrArg Prod.fst h
          simpa using this.symm
        have h2 : r = '.' :: t := by
          have := congrArg Prod.snd h
          simpa using this.symm
        subst h1; subst h2
        have ht := scanDigits_append t [] t ext (by rw [hsd]) (fun _ => hD)
        have hnil2 : (scanDigits (t ++ ext)).1 = [] := by rw [ht]
        rw [List.cons_append]
        simp [scanFrac, ht]
      · simp only [scanFrac, if_true, hnil, if_neg hnil] at h
        have h1 : f = '.' :: (scanDigits t).1 := by
          have := congrArg Prod.fst h
          simpa using this.symm
        have h2 : r = (scanDigits t).2 := by
          have := congrArg Prod.snd h
          simpa using this.symm
        subst h1; subst h2
        have ht := scanDigits_append t (scanDigits t).1 (scanDigits t).2 ext rfl
          (fun _ => hD)
        rw [List.cons_append]
        simp [scanFrac, ht, hnil]
    · simp only [scanFrac, if_neg hc] at h
      have h1 : f = [] := by
        have := congrArg Prod.fst h
        simpa using this.symm
      have h2 : r = c :: t := by
        have := congrArg Prod.snd h
        simpa using this.symm
      subst h1; subst h2
      rw [List.cons_append]
      simp [scanFrac, hc]

/-- Components of an equality between pairs, oriented for substitution. -/
theorem pairInv {α β : Type} {x a : α} {y b : β} (h : (x, y) = (a, b)) :
    a = x ∧ b = y :=
  ⟨(congrArg Prod.fst h).symm, (congrArg Prod.snd h).symm⟩

/-- Appending input that starts with no digit, no exponent marker and no
sign to a scanned exponent part only carries it into the remainder. -/
theorem scanExp_append {l e r ext : List Char} (h : scanExp l = (e, r))
    (hD : headDigit ext = false) (hE : headIs 'e' ext = false)
    (hE2 : headIs 'E' ext = false) (hP : headIs '+' ext = false)
    (hM : headIs '-' ext = false) :
    scanExp (l ++ ext) = (e, r ++ ext) := by
  cases l with
  | nil =>
    simp only [scanExp] at h
    obtain ⟨he, hr⟩ := pairInv h
    subst he; subst hr
    cases ext with
    | nil => rfl
    | cons c t =>
      simp only [headIs] at hE hE2
      rw [beq_eq_false_iff_ne] at hE hE2
      have hc : ¬(c = 'e' ∨ c = 'E') := by
        rintro (h | h) <;> [exact hE h; exact hE2 h]
      simp [scanExp, hc]
  | cons c t =>
    by_cases hce : c = 'e' ∨ c = 'E'
    · cases t with
      | nil =>
        simp only [scanExp, if_pos hce] at h
        obtain ⟨he, hr⟩ := pairInv h
        subst he; subst hr
        rw [List.cons_append, List.nil_append]
        cases ext with
        | nil => simp [scanExp, hce]
        | cons s t2 =>
          simp only [headIs] at hP hM hD
          rw [beq_eq_false_iff_ne] at hP hM
          have hs : ¬(s = '+' ∨ s = '-') := by
            rintro (h | h) <;> [exact hP h; exact hM h]
          have hsd : scanDigits (s :: t2) = ([], s :: t2) :=
            scanDigits_of_headDigit_false (by simpa [headDigit] using hD)
          simp [scanExp, hce, hs, hsd]
      | cons s t2 =>
        by_cases hs : s = '+' ∨ s = '-'
        · by_cases hnil : (scanDigits t2).1 = []
          · obtain ⟨hsd, _⟩ := scanDigits_fst_nil hnil
            simp only [scanExp, if_pos hce, if_pos hs, hnil, if_pos rfl] at h
            obtain ⟨he, hr⟩ := pairInv h
            subst he; subst hr
            have ht := scanDigits_append t2 [] t2 ext (by rw [hsd]) (fun _ => hD)
            rw [List.cons_append, List.cons_append]
            simp [scanExp, hce, hs, ht]
          · simp only [scanExp, if_pos hce, if_pos hs, if_neg hnil] at h
            obtain ⟨he, hr⟩ := pairInv h
            subst he; subst hr
            have ht := scanDigits_append t2 (scanDigits t2).1 (scanDigits t2).2 ext rfl
              (fun _ => hD)
            rw [List.cons_append, List.cons_append]
            simp [scanExp, hce, hs, ht, hnil]
        · by_cases hnil : (scanDigits (s :: t2)).1 = []
          · obtain ⟨hsd, _⟩ := scanDigits_fst_nil hnil
            simp only [scanExp, if_pos hce, if_neg hs, hnil, if_pos rfl] at h
            obtain ⟨he, hr⟩ := pairInv h
            subst he; subst hr
            have ht := scanDigits_append (s :: t2) [] (s :: t2) ext (by rw [hsd])
              (fun habs => absurd habs (List.cons_ne_nil s t2))
            rw [List.cons_append, List.cons_append]
            have ht' : scanDigits (s :: (t2 ++ ext)) = ([], s :: (t2 ++ ext)) := by
              rw [← List.cons_append]
              simpa using ht
            simp [scanExp, hce, hs, ht']
          · simp only [scanExp, if_pos hce, if_neg hs, if_neg hnil] at h
            obtain ⟨he, hr⟩ := pairInv h
            subst he; subst hr
            have ht := scanDigits_append (s :: t2) (scanDigits (s :: t2)).1
              (scanDigits (s :: t2)).2 ext rfl (fun _ => hD)
            rw [List.cons_append, List.cons_append]
            have ht' : scanDigits (s :: (t2 ++ ext)) =
                ((scanDigits (s :: t2)).1, (scanDigits (s :: t2)).2 ++ ext) := by
              rw [← List.cons_append]
              exact ht
            simp [scanExp, hce, hs, ht', hnil]
    · simp only [scanExp, if_neg hce] at h
      obtain ⟨he, hr⟩ := pairInv h
      subst he; subst hr
      rw [List.cons_append]
      simp [scanExp, hce]

/-- Appending stop-headed input to a scanned unsigned number only carries
it into the remainder. -/
theorem scanNumTail_append {l tok r ext : List Char}
    (h : scanNumTail l = some (tok, r)) (hst : isStop ext = true) :
    scanNumTail (l ++ ext) = some (tok, r ++ ext) := by
  obtain ⟨hD, hDot, hE, hE2, hP, hM⟩ := isStop_spread hst
  unfold scanNumTail at h ⊢
  cases hint : scanInt l with
  | none => rw [hint] at h; exact absurd h (by simp)
  | some p =>
    obtain ⟨ip, r1⟩ := p
    rw [hint] at h
    simp only at h
    have hint2 := scanInt_append hint (fun _ => hD)
    rw [hint2]
    have hfr : scanFrac (r1 ++ ext) = ((scanFrac r1).1, (scanFrac r1).2 ++ ext) :=
      scanFrac_append rfl hD hDot
    have hex : scanExp ((scanFrac r1).2 ++ ext) =
        ((scanExp (scanFrac r1).2).1, (scanExp (scanFrac r1).2).2 ++ ext) :=
      scanExp_append rfl hD hE hE2 hP hM
    simp only [hfr, hex]
    obtain ⟨htok, hr⟩ := pairInv (Option.some.inj h)
    subst htok; subst hr
    rfl

/-- Appending stop-headed input to a scanned number token only carries it
into the remainder. -/
theorem scanNumber_append {l tok r ext : List Char}
    (h : scanNumber l = some (tok, r)) (hst : isStop ext = true) :
    scanNumber (l ++ ext) = some (tok, r ++ ext) := by
  cases l with
  | nil => simp [scanNumber] at h
  | cons c t =>
    by_cases hc : c = '-'
    · subst hc
      rw [List.cons_append]
      simp only [scanNumber, if_pos rfl] at h ⊢
      cases htl : scanNumTail t with
      | none => rw [htl] at h; simp at h
      | some p =>
        obtain ⟨tok2, r2⟩ := p
        rw [htl] at h
        simp only at h
        obtain ⟨htok, hr⟩ := pairInv (Option.some.inj h)
        subst htok; subst hr
        rw [scanNumTail_append htl hst]
        simp
    · rw [List.cons_append]
      simp only [scanNumber, if_neg hc] at h ⊢
      rw [← List.cons_append]
      exact scanNumTail_append h hst

/-- Stop-headed input has no fraction part. -/
theorem scanFrac_stop {l : List Char} (h : isStop l = true) : scanFrac l = ([], l) := by
  cases l with
  | nil => rfl
  | cons c t =>
    simp only [isStop, Bool.or_eq_true, beq_iff_eq] at h
    rcases h with (h | h) | h <;> subst h <;> simp [scanFrac]

/-- Stop-headed input has no exponent part. -/
theorem scanExp_stop {l : List Char} (h : isStop l = true) : scanExp l = ([], l) := by
  cases l with
  | nil => rfl
  | cons c t =>
    simp only [isStop, Bool.or_eq_true, beq_iff_eq] at h
    rcases h with (h | h) | h <;> subst h <;> simp [scanExp]

/-- Printed digits of a natural number are never the empty list. -/
theorem natDigits_ne_nil (n : Nat) : natDigits n ≠ [] := by
  unfold natDigits
  by_cases h : n = 0
  · simp [h]
  · rw [if_neg h]
    intro habs
    have h0 : 0 < n := Nat.pos_of_ne_zero h
    rw [natDigitsRev_eq h0] at habs
    simp at habs

/-- The unsigned scanner reads the printed digits of a natural number
exactly, when what follows cannot extend a number token. -/
theorem scanNumTail_natDigits (n : Nat) {rest : List Char} (hst : isStop rest = true) :
    scanNumTail (natDigits n ++ rest) = some (natDigits n, rest) := by
  obtain ⟨hD, _, _, _, _, _⟩ := isStop_spread hst
  by_cases h : n = 0
  · subst h
    show scanNumTail ('0' :: rest) = some (['0'], rest)
    unfold scanNumTail
    have hint : scanInt ('0' :: rest) = some (['0'], rest) := by simp [scanInt]
    rw [hint]
    simp [scanFrac_stop hst, scanExp_stop hst]
  · obtain ⟨c, t, hshape, hdig, hne0, htdig⟩ := natDigits_shape (Nat.pos_of_ne_zero h)
    rw [hshape, List.cons_append]
    unfold scanNumTail
    have hsd : scanDigits (t ++ rest) = (t, rest) := scanDigits_of_digits t rest htdig hD
    have hint : scanInt (c :: (t ++ rest)) = some (c :: t, rest) := by
      simp [scanInt, hne0, hdig, hsd]
    rw [hint]
    simp [scanFrac_stop hst, scanExp_stop hst, hshape]

/-- The number scanner reads a printed integer exactly, when what follows
cannot extend a number token. -/
theorem scanNumber_intRepr (n : Int) {rest : List Char} (hst : isStop rest = true) :
    scanNumber (intRepr n ++ rest) = some (intRepr n, rest) := by
  unfold intRepr
  by_cases hn : n < 0
  · rw [if_pos hn, List.cons_append]
    simp only [scanNumber, if_pos rfl]
    rw [scanNumTail_natDigits n.natAbs hst]
    simp
  · rw [if_neg hn]
    obtain ⟨c, t, hshape⟩ : ∃ c t, natDigits n.natAbs = c :: t := by
      cases hd : natDigits n.natAbs with
      | nil => exact absurd hd (natDigits_ne_nil _)
      | cons c t => exact ⟨c, t, rfl⟩
    have hcd : isDigitC c = true := by
      apply natDigits_digits n.natAbs
      rw [hshape]
      exact List.mem_cons_self c t
    rw [hshape, List.cons_append]
    simp only [scanNumber, if_neg (isDigitC_ne_minus hcd)]
    rw [← List.cons_append, ← hshape]
    exact scanNumTail_natDigits n.natAbs hst

/-- Digit characters are not fraction or exponent markers. -/
theorem digit_not_expDot {c : Char} (h : isDigitC c = true) :
    (c == '.' || c == 'e' || c == 'E') = false := by
  simp only [isDigitC, Bool.or_eq_true, beq_iff_eq] at h
  rcases h with ((((((((h | h) | h) | h) | h) | h) | h) | h) | h) | h <;> subst h <;> rfl

/-- A printed integer contains no fraction or exponent marker. -/
theorem hasExpDot_intRepr (n : Int) : hasExpDot (intRepr n) = false := by
  rw [hasExpDot, List.any_eq_false]
  intro c hc
  unfold intRepr at hc
  by_cases hn : n < 0
  · rw [if_pos hn] at hc
    rcases List.mem_cons.mp hc with h | h
    · subst h; decide
    · simp [digit_not_expDot (natDigits_digits n.natAbs c h)]
  · rw [if_neg hn] at hc
    simp [digit_not_expDot (natDigits_digits n.natAbs c hc)]

/-- Evaluating a printed integer recovers its value. -/
theorem tokValue_intRepr (n : Int) : tokValue (intRepr n) = n := by
  unfold intRepr
  obtain ⟨c, t, hshape⟩ : ∃ c t, natDigits n.natAbs = c :: t := by
    cases hd : natDigits n.natAbs with
    | nil => exact absurd hd (natDigits_ne_nil _)
    | cons c t => exact ⟨c, t, rfl⟩
  have hcd : isDigitC c = true := by
    apply natDigits_digits n.natAbs
    rw [hshape]
    exact List.mem_cons_self c t
  have hval : digitsVal (natDigits n.natAbs) = n.natAbs := digitsVal_natDigits n.natAbs
  by_cases hn : n < 0
  · rw [if_pos hn]
    show tokValue ('-' :: natDigits n.natAbs) = n
    have hneg : tokValue ('-' :: natDigits n.natAbs) =
        -(digitsVal (natDigits n.natAbs) : Int) := by
      simp [tokValue]
    rw [hneg, hval]
    omega
  · rw [if_neg hn, hshape]
    simp only [tokValue, if_neg (isDigitC_ne_minus hcd)]
    rw [← hshape, hval]
    omega

/-- The number parser reads a printed integer back to its value, when what
follows cannot extend the token. -/
theorem parseNumber_intRepr (n : Int) {rest : List Char} (hst : isStop rest = true) :
    parseNumber (intRepr n ++ rest) = some (.int n, rest) := by
  unfold parseNumber
  rw [scanNumber_intRepr n hst]
  simp [hasExpDot_intRepr, tokValue_intRepr]

/-- The number parser reads a well-formed float token back unchanged, when
what follows cannot extend the token. -/
theorem parseNumber_floatTok {r rest : List Char} (htok : scanNumber r = some (r, []))
    (hdot : hasExpDot r = true) (hst : isStop rest = true) :
    parseNumber (r ++ rest) = some (.float r, rest) := by
  unfold parseNumber
  have h := scanNumber_append htok hst
  rw [List.nil_append] at h
  rw [h]
  simp [hdot]

/-- Valid scalar-value bounds of a character. -/
theorem char_toNat_valid (c : Char) :
    c.toNat < 0xD800 ∨ (0xDFFF < c.toNat ∧ c.toNat < 0x110000) := c.valid

/-- Four hex digits printed from a value below `0x10000` evaluate back to
it. -/
theorem hex4_val {m : Nat} (hm : m < 65536) :
    hexVal (hexChar (m / 4096 % 16)) * 4096 + hexVal (hexChar (m / 256 % 16)) * 256 +
      hexVal (hexChar (m / 16 % 16)) * 16 + hexVal (hexChar (m % 16)) = m := by
  rw [hexVal_hexChar (Nat.mod_lt _ (by omega)), hexVal_hexChar (Nat.mod_lt _ (by omega)),
    hexVal_hexChar (Nat.mod_lt _ (by omega)), hexVal_hexChar (Nat.mod_lt _ (by omega))]
  omega

/-- Parse step over a single `\uXXXX` escape that is not a surrogate. -/
theorem psbStepU (g : Nat) (X : List Char) (a b c2 d : Char)
    (hhex : (isHexDigit a && isHexDigit b && isHexDigit c2 && isHexDigit d) = true)
    (hns : ¬(0xD800 ≤ hexVal a * 4096 + hexVal b * 256 + hexVal c2 * 16 + hexVal d ∧
      hexVal a * 4096 + hexVal b * 256 + hexVal c2 * 16 + hexVal d ≤ 0xDBFF))
    (hns2 : ¬(0xDC00 ≤ hexVal a * 4096 + hexVal b * 256 + hexVal c2 * 16 + hexVal d ∧
      hexVal a * 4096 + hexVal b * 256 + hexVal c2 * 16 + hexVal d ≤ 0xDFFF)) :
    parseStringBody (g + 1) ('\\' :: 'u' :: a :: b :: c2 :: d :: X) =
      (match parseStringBody g X with
       | some (p, r) => some (Char.ofNat
          (hexVal a * 4096 + hexVal b * 256 + hexVal c2 * 16 + hexVal d) :: p, r)
       | none => none) := by
  simp only [parseStringBody]
  simp only [if_true, if_false]
  rw [if_neg (by decide)]
  rw [if_pos hhex, if_neg hns, if_neg hns2]

/-- Parse step over a surrogate-pair escape. -/
theorem psbStepPair (g : Nat) (X : List Char) (a b c2 d a2 b2 c3 d2 : Char)
    (hhex : (isHexDigit a && isHexDigit b && isHexDigit c2 && isHexDigit d) = true)
    (hhex2 : (isHexDigit a2 && isHexDigit b2 && isHexDigit c3 && isHexDigit d2) = true)
    (hhi : 0xD800 ≤ hexVal a * 4096 + hexVal b * 256 + hexVal c2 * 16 + hexVal d ∧
      hexVal a * 4096 + hexVal b * 256 + hexVal c2 * 16 + hexVal d ≤ 0xDBFF)
    (hlo : 0xDC00 ≤ hexVal a2 * 4096 + hexVal b2 * 256 + hexVal c3 * 16 + hexVal d2 ∧
      hexVal a2 * 4096 + hexVal b2 * 256 + hexVal c3 * 16 + hexVal d2 ≤ 0xDFFF) :
    parseStringBody (g + 1)
      ('\\' :: 'u' :: a :: b :: c2 :: d :: '\\' :: 'u' :: a2 :: b2 :: c3 :: d2 :: X) =
      (match parseStringBody g X with
       | some (p, r) => some (Char.ofNat
          (0x10000 +
            (hexVal a * 4096 + hexVal b * 256 + hexVal c2 * 16 + hexVal d - 0xD800) * 1024 +
            (hexVal a2 * 4096 + hexVal b2 * 256 + hexVal c3 * 16 + hexVal d2 - 0xDC00)) :: p, r)
       | none => none) := by
  simp only [parseStringBody]
  simp only [if_true, if_false]
  rw [if_neg (by decide)]
  rw [if_pos hhex, if_pos hhi]
  rw [if_pos hhex2, if_pos hlo]

/-- String-body parse of an escaped string terminated by the closing
quote recovers the original characters. -/
theorem parseStringBody_escape : ∀ (s : List Char) (f : Nat) (rest : List Char),
    s.length < f → parseStringBody f (escape s ++ ('"' :: rest)) = some (s, rest) := by
  intro s
  induction s with
  | nil =>
    intro f rest hf
    cases f with
    | zero => omega
    | succ g => simp [escape, parseStringBody]
  | cons c s' ih =>
    intro f rest hf
    cases f with
    | zero => omega
    | succ g =>
    have hg : s'.length < g := by
      simp only [List.length_cons] at hf
      omega
    have ihg := ih g rest hg
    show parseStringBody (g + 1) ((escapeChar c ++ escape s') ++ '"' :: rest) =
      some (c :: s', rest)
    by_cases hq : c = '"'
    · subst hq
      rw [show escapeChar '"' = ['\\', '"'] from rfl]
      have step : parseStringBody (g + 1) ('\\' :: '"' :: (escape s' ++ '"' :: rest)) =
          (match parseStringBody g (escape s' ++ '"' :: rest) with
           | some (p, r) => some ('"' :: p, r)
           | none => none) := rfl
      rw [show (['\\', '"'] ++ escape s') ++ '"' :: rest =
        '\\' :: '"' :: (escape s' ++ '"' :: rest) from by simp]
      rw [step, ihg]
    · by_cases hb : c = '\\'
      · subst hb
        rw [show escapeChar '\\' = ['\\', '\\'] from rfl]
        have step : parseStringBody (g + 1) ('\\' :: '\\' :: (escape s' ++ '"' :: rest)) =
            (match parseStringBody g (escape s' ++ '"' :: rest) with
             | some (p, r) => some ('\\' :: p, r)
             | none => none) := rfl
        rw [show (['\\', '\\'] ++ escape s') ++ '"' :: rest =
          '\\' :: '\\' :: (escape s' ++ '"' :: rest) from by simp]
        rw [step, ihg]
      · by_cases hn : c = '\n'
        · subst hn
          rw [show escapeChar '\n' = ['\\', 'n'] from rfl]
          have step : parseStringBody (g + 1) ('\\' :: 'n' :: (escape s' ++ '"' :: rest)) =
              (match parseStringBody g (escape s' ++ '"' :: rest) with
               | some (p, r) => some ('\n' :: p, r)
               | none => none) := rfl
          rw [show (['\\', 'n'] ++ escape s') ++ '"' :: rest =
            '\\' :: 'n' :: (escape s' ++ '"' :: rest) from by simp]
          rw [step, ihg]
        · by_cases hr : c = '\r'
          · subst hr
            rw [show escapeChar '\r' = ['\\', 'r'] from rfl]
            have step : parseStringBody (g + 1) ('\\' :: 'r' :: (escape s' ++ '"' :: rest)) =
                (match parseStringBody g (escape s' ++ '"' :: rest) with
                 | some (p, r) => some ('\r' :: p, r)
                 | none => none) := rfl
            rw [show (['\\', 'r'] ++ escape s') ++ '"' :: rest =
              '\\' :: 'r' :: (escape s' ++ '"' :: rest) from by simp]
            rw [step, ihg]
          · by_cases htb : c = '\t'
            · subst htb
              rw [show escapeChar '\t' = ['\\', 't'] from rfl]
              have step : parseStringBody (g + 1) ('\\' :: 't' :: (escape s' ++ '"' :: rest)) =
                  (match parseStringBody g (escape s' ++ '"' :: rest) with
                   | some (p, r) => some ('\t' :: p, r)
                   | none => none) := rfl
              rw [show (['\\', 't'] ++ escape s') ++ '"' :: rest =
                '\\' :: 't' :: (escape s' ++ '"' :: rest) from by simp]
              rw [step, ihg]
            · by_cases h8 : c.toNat = 8
              · have hc : c = '\x08' := by
                  rw [← Char.ofNat_toNat c, h8]
                subst hc
                rw [show escapeChar '\x08' = ['\\', 'b'] from rfl]
                have step : parseStringBody (g + 1) ('\\' :: 'b' :: (escape s' ++ '"' :: rest)) =
                    (match parseStringBody g (escape s' ++ '"' :: rest) with
                     | some (p, r) => some ('\x08' :: p, r)
                     | none => none) := rfl
                rw [show (['\\', 'b'] ++ escape s') ++ '"' :: rest =
                  '\\' :: 'b' :: (escape s' ++ '"' :: rest) from by simp]
                rw [step, ihg]
              · by_cases h12 : c.toNat = 12
                · have hc : c = '\x0c' := by
                    rw [← Char.ofNat_toNat c, h12]
                  subst hc
                  rw [show escapeChar '\x0c' = ['\\', 'f'] from rfl]
                  have step : parseStringBody (g + 1)
                      ('\\' :: 'f' :: (escape s' ++ '"' :: rest)) =
                      (match parseStringBody g (escape s' ++ '"' :: rest) with
                       | some (p, r) => some ('\x0c' :: p, r)
                       | none => none) := rfl
                  rw [show (['\\', 'f'] ++ escape s') ++ '"' :: rest =
                    '\\' :: 'f' :: (escape s' ++ '"' :: rest) from by simp]
                  rw [step, ihg]
                · by_cases hpr : 0x20 ≤ c.toNat ∧ c.toNat ≤ 0x7e
                  · rw [show escapeChar c = [c] from by
                      simp [escapeChar, hq, hb, hn, hr, htb, h8, h12, hpr]]
                    rw [show ([c] ++ escape s') ++ '"' :: rest =
                      c :: (escape s' ++ '"' :: rest) from by simp]
                    simp only [parseStringBody]
                    rw [if_neg hq, if_neg hb, if_neg (by omega), ihg]
                  · by_cases hlt : c.toNat < 0x10000
                    · rw [show escapeChar c =
                        '\\' :: 'u' :: hexChar (c.toNat / 4096 % 16) ::
                          hexChar (c.toNat / 256 % 16) :: hexChar (c.toNat / 16 % 16) ::
                          hexChar (c.toNat % 16) :: [] from by
                        simp [escapeChar, hq, hb, hn, hr, htb, h8, h12, hpr, hlt]]
                      rw [show (('\\' :: 'u' :: hexChar (c.toNat / 4096 % 16) ::
                          hexChar (c.toNat / 256 % 16) :: hexChar (c.toNat / 16 % 16) ::
                          hexChar (c.toNat % 16) :: []) ++ escape s') ++ '"' :: rest =
                        '\\' :: 'u' :: hexChar (c.toNat / 4096 % 16) ::
                          hexChar (c.toNat / 256 % 16) :: hexChar (c.toNat / 16 % 16) ::
                          hexChar (c.toNat % 16) :: (escape s' ++ '"' :: rest) from by simp]
                      have hN := hex4_val (m := c.toNat) hlt
                      have hval := char_toNat_valid c
                      rw [psbStepU g _ _ _ _ _
                        (by rw [isHexDigit_hexChar (Nat.mod_lt _ (by omega)),
                          isHexDigit_hexChar (Nat.mod_lt _ (by omega)),
                          isHexDigit_hexChar (Nat.mod_lt _ (by omega)),
                          isHexDigit_hexChar (Nat.mod_lt _ (by omega))]; rfl)
                        (by rw [hN]; omega)
                        (by rw [hN]; omega)]
                      rw [ihg, hN, Char.ofNat_toNat]
                    · have hval := char_toNat_valid c
                      have hm1 : c.toNat < 0x110000 := by omega
                      have hm0 : 0x10000 ≤ c.toNat := by omega
                      rw [show escapeChar c =
                        '\\' :: 'u' ::
                          hexChar ((0xD800 + (c.toNat - 0x10000) / 0x400) / 4096 % 16) ::
                          hexChar ((0xD800 + (c.toNat - 0x10000) / 0x400) / 256 % 16) ::
                          hexChar ((0xD800 + (c.toNat - 0x10000) / 0x400) / 16 % 16) ::
                          hexChar ((0xD800 + (c.toNat - 0x10000) / 0x400) % 16) ::
                        '\\' :: 'u' ::
                          hexChar ((0xDC00 + (c.toNat - 0x10000) % 0x400) / 4096 % 16) ::
                          hexChar ((0xDC00 + (c.toNat - 0x10000) % 0x400) / 256 % 16) ::
                          hexChar ((0xDC00 + (c.toNat - 0x10000) % 0x400) / 16 % 16) ::
                          hexChar ((0xDC00 + (c.toNat - 0x10000) % 0x400) % 16) :: [] from by
                        simp [escapeChar, hq, hb, hn, hr, htb, h8, h12, hpr, hlt]]
                      have hhiB : 0xD800 + (c.toNat - 0x10000) / 0x400 < 65536 := by omega
                      have hloB : 0xDC00 + (c.toNat - 0x10000) % 0x400 < 65536 := by
                        have := Nat.mod_lt (c.toNat - 0x10000) (show 0 < 0x400 by omega)
                        omega
                      have hNhi := hex4_val hhiB
                      have hNlo := hex4_val hloB
                      rw [show (('\\' :: 'u' ::
                          hexChar ((0xD800 + (c.toNat - 0x10000) / 0x400) / 4096 % 16) ::
                          hexChar ((0xD800 + (c.toNat - 0x10000) / 0x400) / 256 % 16) ::
                          hexChar ((0xD800 + (c.toNat - 0x10000) / 0x400) / 16 % 16) ::
                          hexChar ((0xD800 + (c.toNat - 0x10000) / 0x400) % 16) ::
                        '\\' :: 'u' ::
                          hexChar ((0xDC00 + (c.toNat - 0x10000) % 0x400) / 4096 % 16) ::
                          hexChar ((0xDC00 + (c.toNat - 0x10000) % 0x400) / 256 % 16) ::
                          hexChar ((0xDC00 + (c.toNat - 0x10000) % 0x400) / 16 % 16) ::
                          hexChar ((0xDC00 + (c.toNat - 0x10000) % 0x400) % 16) :: []) ++
                          escape s') ++ '"' :: rest =
                        '\\' :: 'u' ::
                          hexChar ((0xD800 + (c.toNat - 0x10000) / 0x400) / 4096 % 16) ::
                          hexChar ((0xD800 + (c.toNat - 0x10000) / 0x400) / 256 % 16) ::
                          hexChar ((0xD800 + (c.toNat - 0x10000) / 0x400) / 16 % 16) ::
                          hexChar ((0xD800 + (c.toNat - 0x10000) / 0x400) % 16) ::
                        '\\' :: 'u' ::
                          hexChar ((0xDC00 + (c.toNat - 0x10000) % 0x400) / 4096 % 16) ::
                          hexChar ((0xDC00 + (c.toNat - 0x10000) % 0x400) / 256 % 16) ::
                          hexChar ((0xDC00 + (c.toNat - 0x10000) % 0x400) / 16 % 16) ::
                          hexChar ((0xDC00 + (c.toNat - 0x10000) % 0x400) % 16) ::
                          (escape s' ++ '"' :: rest) from by simp]
                      rw [psbStepPair g _ _ _ _ _ _ _ _ _
                        (by rw [isHexDigit_hexChar (Nat.mod_lt _ (by omega)),
                          isHexDigit_hexChar (Nat.mod_lt _ (by omega)),
                          isHexDigit_hexChar (Nat.mod_lt _ (by omega)),
                          isHexDigit_hexChar (Nat.mod_lt _ (by omega))]; rfl)
                        (by rw [isHexDigit_hexChar (Nat.mod_lt _ (by omega)),
                          isHexDigit_hexChar (Nat.mod_lt _ (by omega)),
                          isHexDigit_hexChar (Nat.mod_lt _ (by omega)),
                          isHexDigit_hexChar (Nat.mod_lt _ (by omega))]; rfl)
                        (by rw [hNhi]; omega)
                        (by rw [hNlo]; omega)]
                      rw [ihg, hNhi, hNlo]
                      have hfin : 0x10000 +
                          (0xD800 + (c.toNat - 0x10000) / 0x400 - 0xD800) * 1024 +
                          (0xDC00 + (c.toNat - 0x10000) % 0x400 - 0xDC00) = c.toNat := by
                        omega
                      rw [hfin, Char.ofNat_toNat]

mutual
/-- Fuel sufficient for `parseVal` to parse the serialization: one unit
per parser call along the deepest call chain. -/
def jsonFuel : Json → Nat
  | .null => 1
  | .bool _ => 1
  | .int _ => 1
  | .float _ => 1
  | .str _ => 1
  | .arr xs => 1 + listFuel xs
  | .obj kvs => 1 + objFuel kvs
/-- Fuel sufficient for `parseArrItems` on the items' serialization. -/
def listFuel : JsonList → Nat
  | .nil => 0
  | .cons x tl => 1 + max (jsonFuel x) (listFuel tl)
/-- Fuel sufficient for `parseObjItems` on the entries' serialization. -/
def objFuel : JsonObj → Nat
  | .nil => 0
  | .cons _ v tl => 1 + max (jsonFuel v) (objFuel tl)
end

/-- Key uniqueness of an association list; holds for every list a Python
`dict` can produce. -/
def JsonObj.keysOk : JsonObj → Bool
  | .nil => true
  | .cons k _ tl => !tl.hasKey k && tl.keysOk

mutual
/-- Well-formedness of a modelled Python value: every `float` text is the
maximal number token its own scan produces and mentions a fraction or
exponent (true of every finite-float `repr`), and every object has unique
keys (true of every `dict`).  Exactly the values that arise from real
Python data. -/
def Json.wf : Json → Bool
  | .null => true
  | .bool _ => true
  | .int _ => true
  | .float r => decide (scanNumber r = some (r, [])) && hasExpDot r
  | .str _ => true
  | .arr xs => JsonList.wf xs
  | .obj kvs => JsonObj.keysOk kvs && JsonObj.wf kvs
/-- Well-formedness of each element. -/
def JsonList.wf : JsonList → Bool
  | .nil => true
  | .cons x tl => Json.wf x && JsonList.wf tl
/-- Well-formedness of each value. -/
def JsonObj.wf : JsonObj → Bool
  | .nil => true
  | .cons _ v tl => Json.wf v && JsonObj.wf tl
end

/-- Concatenation of ordered key/value pair lists. -/
def JsonObj.cat : JsonObj → JsonObj → JsonObj
  | .nil, o => o
  | .cons k v tl, o => .cons k v (tl.cat o)

/-- Concatenation on the right by the empty list. -/
theorem JsonObj.cat_nil : ∀ a : JsonObj, a.cat .nil = a
  | .nil => rfl
  | .cons k v tl => by rw [JsonObj.cat, JsonObj.cat_nil tl]

/-- Associativity of pair-list concatenation. -/
theorem JsonObj.cat_assoc : ∀ a b c : JsonObj, (a.cat b).cat c = a.cat (b.cat c)
  | .nil, _, _ => rfl
  | .cons k v tl, b, c => by rw [JsonObj.cat, JsonObj.cat, JsonObj.cat,
      JsonObj.cat_assoc tl b c]

/-- Key membership distributes over concatenation. -/
theorem JsonObj.hasKey_cat : ∀ (a b : JsonObj) (k : List Char),
    (a.cat b).hasKey k = (a.hasKey k || b.hasKey k)
  | .nil, _, _ => rfl
  | .cons k' v tl, b, k => by
    rw [JsonObj.cat, JsonObj.hasKey, JsonObj.hasKey, JsonObj.hasKey_cat tl b k,
      Bool.or_assoc]

/-- Inserting a fresh key appends the pair. -/
theorem JsonObj.insertPy_fresh : ∀ (acc : JsonObj) (k : List Char) (v : Json),
    acc.hasKey k = false → acc.insertPy k v = acc.cat (.cons k v .nil)
  | .nil, _, _, _ => rfl
  | .cons k' v' tl, k, v, h => by
    rw [JsonObj.hasKey, Bool.or_eq_false_iff] at h
    rw [JsonObj.insertPy, if_neg (by
      intro habs
      rw [habs] at h
      simp at h), JsonObj.cat, JsonObj.insertPy_fresh tl k v h.2]

/-- Building a Python dict from pairs with pairwise fresh keys appends
them in order. -/
theorem buildPyAux_cat : ∀ (kvs acc : JsonObj), kvs.keysOk = true →
    (∀ k, kvs.hasKey k = true → acc.hasKey k = false) →
    buildPyAux acc kvs = acc.cat kvs
  | .nil, acc, _, _ => by rw [buildPyAux, JsonObj.cat_nil]
  | .cons k v tl, acc, hok, hdisj => by
    rw [JsonObj.keysOk, Bool.and_eq_true, Bool.not_eq_true'] at hok
    have hfresh : acc.hasKey k = false := by
      apply hdisj
      rw [JsonObj.hasKey]
      simp
    have hdisj2 : ∀ k2, tl.hasKey k2 = true → (acc.cat (.cons k v .nil)).hasKey k2 = false := by
      intro k2 hk2
      rw [JsonObj.hasKey_cat, Bool.or_eq_false_iff]
      constructor
      · apply hdisj
        rw [JsonObj.hasKey, hk2]
        simp
      · rw [JsonObj.hasKey, JsonObj.hasKey, Bool.or_false]
        by_cases hkk : k = k2
        · subst hkk
          rw [hk2] at hok
          exact absurd hok.1 (by simp)
        · simp only [beq_eq_false_iff_ne]
          exact hkk
    rw [buildPyAux, JsonObj.insertPy_fresh acc k v hfresh,
      buildPyAux_cat tl (acc.cat (.cons k v .nil)) hok.2 hdisj2, JsonObj.cat_assoc]
    rfl

/-- Building a Python dict from unique-keyed pairs is the identity. -/
theorem buildPy_eq {kvs : JsonObj} (h : kvs.keysOk = true) : buildPy kvs = kvs := by
  rw [buildPy, buildPyAux_cat kvs .nil h (fun _ _ => rfl)]
  rfl

/-- Escaping a character emits at least one character. -/
theorem escapeChar_length_pos (c : Char) : 0 < (escapeChar c).length := by
  unfold escapeChar
  repeat' split
  all_goals simp

/-- Escaping never shortens a string. -/
theorem escape_length : ∀ s : List Char, s.length ≤ (escape s).length
  | [] => Nat.le_refl 0
  | c :: t => by
    rw [escape, List.length_append, List.length_cons]
    have h1 := escapeChar_length_pos c
    have h2 := escape_length t
    omega

/-- Dropping whitespace leaves a list whose head is not whitespace
unchanged. -/
theorem skipWs_not_ws {c : Char} {t : List Char} (h : isJsonWs c = false) :
    skipWs (c :: t) = c :: t := by
  simp [skipWs, List.dropWhile_cons, h]

/-- Dropping whitespace consumes a leading space. -/
theorem skipWs_space (t : List Char) : skipWs (' ' :: t) = skipWs t := by
  rw [skipWs, skipWs, List.dropWhile_cons, if_pos (show isJsonWs ' ' = true from rfl)]

/-- Digit characters are neither whitespace, nor brackets, nor braces,
nor any value-dispatch character. -/
theorem digit_facts {c : Char} (h : isDigitC c = true) :
    isJsonWs c = false ∧ c ≠ ']' ∧ c ≠ '"' ∧ c ≠ '[' ∧ c ≠ '{' ∧
      c ≠ 't' ∧ c ≠ 'f' ∧ c ≠ 'n' := by
  simp only [isDigitC, Bool.or_eq_true, beq_iff_eq] at h
  rcases h with ((((((((h | h) | h) | h) | h) | h) | h) | h) | h) | h <;> subst h <;>
    exact ⟨rfl, by decide, by decide, by decide, by decide, by decide, by decide, by decide⟩

/-- The head of a maximal number token is a minus sign or a digit. -/
theorem numTok_head {r : List Char} (h : scanNumber r = some (r, [])) :
    ∃ c t, r = c :: t ∧ (c = '-' ∨ isDigitC c = true) := by
  cases r with
  | nil => simp [scanNumber] at h
  | cons c t =>
    refine ⟨c, t, rfl, ?_⟩
    by_cases hc : c = '-'
    · exact Or.inl hc
    · right
      simp only [scanNumber, if_neg hc] at h
      unfold scanNumTail at h
      cases hint : scanInt (c :: t) with
      | none => rw [hint] at h; simp at h
      | some p =>
        by_cases h0 : c = '0'
        · subst h0; rfl
        · by_cases hd : isDigitC c = true
          · exact hd
          · have hd' : isDigitC c = false := Bool.eq_false_iff.mpr hd
            simp [scanInt, h0, hd'] at hint

/-- On input headed by a minus sign or digit, the value parser reads a
number. -/
theorem parseVal_number (g : Nat) {c : Char} (t : List Char)
    (h : c = '-' ∨ isDigitC c = true) :
    parseVal (g + 1) (c :: t) = parseNumber (c :: t) := by
  have hf : c ≠ '"' ∧ c ≠ '[' ∧ c ≠ '{' ∧ c ≠ 't' ∧ c ≠ 'f' ∧ c ≠ 'n' := by
    rcases h with h | h
    · subst h
      exact ⟨by decide, by decide, by decide, by decide, by decide, by decide⟩
    · obtain ⟨_, _, h3, h4, h5, h6, h7, h8⟩ := digit_facts h
      exact ⟨h3, h4, h5, h6, h7, h8⟩
  simp only [parseVal]
  rw [if_neg hf.1, if_neg hf.2.1, if_neg hf.2.2.1, if_neg hf.2.2.2.1,
    if_neg hf.2.2.2.2.1, if_neg hf.2.2.2.2.2]

/-- The serialization of a well-formed value starts with a character that
is neither whitespace nor a closing bracket. -/
theorem dumps_head (v : Json) (hwf : Json.wf v = true) :
    ∃ c t, Json.dumps v = c :: t ∧ isJsonWs c = false ∧ c ≠ ']' := by
  cases v with
  | null => exact ⟨'n', _, rfl, rfl, by decide⟩
  | bool b => cases b with
    | true => exact ⟨'t', _, rfl, rfl, by decide⟩
    | false => exact ⟨'f', _, rfl, rfl, by decide⟩
  | int n =>
    show ∃ c t, intRepr n = c :: t ∧ _
    unfold intRepr
    by_cases hn : n < 0
    · rw [if_pos hn]
      exact ⟨'-', _, rfl, rfl, by decide⟩
    · rw [if_neg hn]
      cases hd : natDigits n.natAbs with
      | nil => exact absurd hd (natDigits_ne_nil _)
      | cons c t =>
        have hcd : isDigitC c = true := by
          apply natDigits_digits n.natAbs
          rw [hd]
          exact List.mem_cons_self c t
        obtain ⟨f1, f2, _⟩ := digit_facts hcd
        exact ⟨c, t, rfl, f1, f2⟩
  | float r =>
    show ∃ c t, r = c :: t ∧ _
    rw [Json.wf, Bool.and_eq_true, decide_eq_true_eq] at hwf
    obtain ⟨c, t, hr, hc⟩ := numTok_head hwf.1
    rcases hc with hc | hc
    · subst hc
      exact ⟨'-', t, hr, rfl, by decide⟩
    · obtain ⟨f1, f2, _⟩ := digit_facts hc
      exact ⟨c, t, hr, f1, f2⟩
  | str s => exact ⟨'"', _, rfl, rfl, by decide⟩
  | arr xs => cases xs with
    | nil => exact ⟨'[', _, rfl, rfl, by decide⟩
    | cons x tl => exact ⟨'[', _, rfl, rfl, by decide⟩
  | obj kvs => cases kvs with
    | nil => exact ⟨'{', _, rfl, rfl, by decide⟩
    | cons k v tl => exact ⟨'{', _, rfl, rfl, by decide⟩

/-- Printed integers are nonempty. -/
theorem intRepr_length_pos (n : Int) : 0 < (intRepr n).length := by
  unfold intRepr
  by_cases hn : n < 0
  · rw [if_pos hn]; simp
  · rw [if_neg hn]
    cases hd : natDigits n.natAbs with
    | nil => exact absurd hd (natDigits_ne_nil _)
    | cons c t => simp

mutual
/-- The parse fuel a value needs is bounded by its serialized length. -/
theorem jsonFuel_le : ∀ (v : Json), Json.wf v = true → jsonFuel v ≤ (Json.dumps v).length
  | .null, _ => by rw [jsonFuel, Json.dumps]; simp
  | .bool true, _ => by rw [jsonFuel, Json.dumps]; simp
  | .bool false, _ => by rw [jsonFuel, Json.dumps]; simp
  | .int n, _ => by
    rw [jsonFuel]
    have := intRepr_length_pos n
    show 1 ≤ (intRepr n).length
    omega
  | .float r, hwf => by
    rw [jsonFuel]
    rw [Json.wf, Bool.and_eq_true, decide_eq_true_eq] at hwf
    obtain ⟨c, t, hr, _⟩ := numTok_head hwf.1
    show 1 ≤ r.length
    rw [hr]
    simp
  | .str s, _ => by rw [jsonFuel, Json.dumps]; simp
  | .arr .nil, _ => by rw [jsonFuel, Json.dumps]; simp [listFuel]
  | .arr (.cons x tl), hwf => by
    rw [Json.wf] at hwf
    have h1 := listFuel_le (.cons x tl) hwf
    rw [jsonFuel, Json.dumps]
    simp only [List.length_cons, List.length_append, List.length_singleton]
    omega
  | .obj .nil, _ => by rw [jsonFuel, Json.dumps]; simp [objFuel]
  | .obj (.cons k v tl), hwf => by
    rw [Json.wf, Bool.and_eq_true] at hwf
    have h1 := objFuel_le (.cons k v tl) hwf.2
    rw [jsonFuel, Json.dumps]
    simp only [List.length_cons, List.length_append, List.length_singleton]
    omega
/-- The parse fuel array items need is bounded by the serialized length
plus one. -/
theorem listFuel_le : ∀ (xs : JsonList), JsonList.wf xs = true →
    listFuel xs ≤ (JsonList.dumps xs).length + 1
  | .nil, _ => by rw [listFuel]; omega
  | .cons x .nil, hwf => by
    rw [JsonList.wf, Bool.and_eq_true] at hwf
    have h1 := jsonFuel_le x hwf.1
    rw [listFuel, JsonList.dumps, listFuel]
    omega
  | .cons x (.cons y tl), hwf => by
    rw [JsonList.wf, Bool.and_eq_true] at hwf
    have h1 := jsonFuel_le x hwf.1
    have h2 := listFuel_le (.cons y tl) hwf.2
    rw [listFuel, JsonList.dumps]
    simp only [List.length_append, List.length_cons]
    omega
/-- The parse fuel object entries need is bounded by the serialized
length plus one. -/
theorem objFuel_le : ∀ (kvs : JsonObj), JsonObj.wf kvs = true →
    objFuel kvs ≤ (JsonObj.dumps kvs).length + 1
  | .nil, _ => by rw [objFuel]; omega
  | .cons k v .nil, hwf => by
    rw [JsonObj.wf, Bool.and_eq_true] at hwf
    have h1 := jsonFuel_le v hwf.1
    rw [objFuel, JsonObj.dumps, objFuel]
    simp only [List.length_cons, List.length_append]
    omega
  | .cons k v (.cons k2 v2 tl), hwf => by
    rw [JsonObj.wf, Bool.and_eq_true] at hwf
    have h1 := jsonFuel_le v hwf.1
    have h2 := objFuel_le (.cons k2 v2 tl) hwf.2
    rw [objFuel, JsonObj.dumps]
    simp only [List.length_append, List.length_cons]
    omega
end

/-- Head shape of a printed integer: a minus sign or a digit. -/
theorem intRepr_head (n : Int) :
    ∃ c t, intRepr n = c :: t ∧ (c = '-' ∨ isDigitC c = true) := by
  unfold intRepr
  by_cases hn : n < 0
  · rw [if_pos hn]
    exact ⟨'-', _, rfl, Or.inl rfl⟩
  · rw [if_neg hn]
    cases hd : natDigits n.natAbs with
    | nil => exact absurd hd (natDigits_ne_nil _)
    | cons c t =>
      refine ⟨c, t, rfl, Or.inr ?_⟩
      apply natDigits_digits n.natAbs
      rw [hd]
      exact List.mem_cons_self c t

/-- Item lists serialize to the first item's serialization followed by a
suffix. -/
theorem listDumps_shape (x : Json) (tl : JsonList) :
    ∃ sfx, JsonList.dumps (.cons x tl) = Json.dumps x ++ sfx := by
  cases tl with
  | nil => exact ⟨[], by rw [JsonList.dumps, List.append_nil]⟩
  | cons y tl2 => exact ⟨',' :: ' ' :: JsonList.dumps (.cons y tl2), by rw [JsonList.dumps]⟩

mutual
/-- Core round trip: parsing the serialization of a well-formed value,
followed by anything that cannot extend a token, yields the value back
and leaves exactly the remainder. -/
theorem parseVal_dumps : ∀ (v : Json), Json.wf v = true → ∀ (f : Nat), jsonFuel v ≤ f →
    ∀ (ext : List Char), isStop ext = true →
    parseVal f (Json.dumps v ++ ext) = some (v, ext)
  | .null, _, f, hf, ext, _ => by
    rw [jsonFuel] at hf
    cases f with
    | zero => omega
    | succ g =>
      rw [show Json.dumps .null = ['n', 'u', 'l', 'l'] from by rw [Json.dumps]]
      rfl
  | .bool true, _, f, hf, ext, _ => by
    rw [jsonFuel] at hf
    cases f with
    | zero => omega
    | succ g =>
      rw [show Json.dumps (.bool true) = ['t', 'r', 'u', 'e'] from by rw [Json.dumps]]
      rfl
  | .bool false, _, f, hf, ext, _ => by
    rw [jsonFuel] at hf
    cases f with
    | zero => omega
    | succ g =>
      rw [show Json.dumps (.bool false) = ['f', 'a', 'l', 's', 'e'] from by rw [Json.dumps]]
      rfl
  | .int n, _, f, hf, ext, hst => by
    rw [jsonFuel] at hf
    cases f with
    | zero => omega
    | succ g =>
      rw [show Json.dumps (.int n) = intRepr n from by rw [Json.dumps]]
      obtain ⟨c, t, hct, hcd⟩ := intRepr_head n
      rw [hct, List.cons_append, parseVal_number g _ hcd, ← List.cons_append, ← hct]
      exact parseNumber_intRepr n hst
  | .float r, hwf, f, hf, ext, hst => by
    rw [jsonFuel] at hf
    rw [Json.wf, Bool.and_eq_true, decide_eq_true_eq] at hwf
    cases f with
    | zero => omega
    | succ g =>
      rw [show Json.dumps (.float r) = r from by rw [Json.dumps]]
      obtain ⟨c, t, hct, hcd⟩ := numTok_head hwf.1
      rw [hct, List.cons_append, parseVal_number g _ hcd, ← List.cons_append, ← hct]
      exact parseNumber_floatTok hwf.1 hwf.2 hst
  | .str s, _, f, hf, ext, _ => by
    rw [jsonFuel] at hf
    cases f with
    | zero => omega
    | succ g =>
      rw [show Json.dumps (.str s) = '"' :: (escape s ++ ['"']) from by rw [Json.dumps]]
      rw [show ('"' :: (escape s ++ ['"'])) ++ ext = '"' :: (escape s ++ '"' :: ext) from by
        simp]
      simp only [parseVal]
      simp only [if_true, if_false]
      rw [parseStringBody_escape s ((escape s ++ '"' :: ext).length + 1) ext (by
        have := escape_length s
        simp only [List.length_append, List.length_cons]
        omega)]
  | .arr .nil, _, f, hf, ext, _ => by
    rw [jsonFuel, listFuel] at hf
    cases f with
    | zero => omega
    | succ g =>
      rw [show Json.dumps (.arr .nil) = ['[', ']'] from by rw [Json.dumps]]
      rfl
  | .arr (.cons x tl), hwf, f, hf, ext, hst => by
    rw [jsonFuel] at hf
    rw [Json.wf] at hwf
    have hwfx : Json.wf x = true := by
      rw [JsonList.wf, Bool.and_eq_true] at hwf
      exact hwf.1
    cases f with
    | zero => omega
    | succ g =>
      have hlf : listFuel (.cons x tl) ≤ g := by omega
      rw [show Json.dumps (.arr (.cons x tl)) =
        '[' :: (JsonList.dumps (.cons x tl) ++ [']']) from by rw [Json.dumps]]
      rw [show ('[' :: (JsonList.dumps (.cons x tl) ++ [']'])) ++ ext =
        '[' :: (JsonList.dumps (.cons x tl) ++ ']' :: ext) from by simp]
      simp only [parseVal]
      rw [if_neg (show ¬(('[' : Char) = '"') by decide), if_pos trivial]
      obtain ⟨sfx, hsfx⟩ := listDumps_shape x tl
      obtain ⟨c, t, hx, hws, hne⟩ := dumps_head x hwfx
      have hscrut : skipWs (JsonList.dumps (.cons x tl) ++ ']' :: ext) =
          JsonList.dumps (.cons x tl) ++ ']' :: ext := by
        rw [hsfx, hx]
        rw [List.cons_append, List.cons_append]
        exact skipWs_not_ws hws
      rw [hscrut]
      have harr := parseArrItems_dumps x tl hwf g hlf ext
      split
      · rename_i heq
        rw [hsfx, hx, List.cons_append, List.cons_append] at heq
        exact absurd (List.cons.inj heq).1 hne
      · rw [harr]
  | .obj .nil, _, f, hf, ext, _ => by
    rw [jsonFuel, objFuel] at hf
    cases f with
    | zero => omega
    | succ g =>
      rw [show Json.dumps (.obj .nil) = ['{', '}'] from by rw [Json.dumps]]
      rfl
  | .obj (.cons k v tl), hwf, f, hf, ext, hst => by
    rw [jsonFuel] at hf
    rw [Json.wf, Bool.and_eq_true] at hwf
    cases f with
    | zero => omega
    | succ g =>
      have hof : objFuel (.cons k v tl) ≤ g := by omega
      rw [show Json.dumps (.obj (.cons k v tl)) =
        '{' :: (JsonObj.dumps (.cons k v tl) ++ ['}']) from by rw [Json.dumps]]
      rw [show ('{' :: (JsonObj.dumps (.cons k v tl) ++ ['}'])) ++ ext =
        '{' :: (JsonObj.dumps (.cons k v tl) ++ '}' :: ext) from by simp]
      simp only [parseVal]
      rw [if_neg (show ¬(('{' : Char) = '"') by decide),
        if_neg (show ¬(('{' : Char) = '[') by decide), if_pos trivial]
      have hhead : ∃ t0, JsonObj.dumps (.cons k v tl) = '"' :: t0 := by
        cases tl with
        | nil => exact ⟨_, by rw [JsonObj.dumps]⟩
        | cons k2 v2 tl2 => exact ⟨_, by rw [JsonObj.dumps]; rw [List.cons_append]⟩
      obtain ⟨t0, ht0⟩ := hhead
      have hscrut : skipWs (JsonObj.dumps (.cons k v tl) ++ '}' :: ext) =
          JsonObj.dumps (.cons k v tl) ++ '}' :: ext := by
        rw [ht0, List.cons_append]
        exact skipWs_not_ws rfl
      rw [hscrut]
      have hobj := parseObjItems_dumps k v tl hwf.2 g hof ext
      split
      · rename_i heq
        rw [ht0, List.cons_append] at heq
        exact absurd (List.cons.inj heq).1 (by decide)
      · rw [hobj]
        show some (Json.obj (buildPy (JsonObj.cons k v tl)), ext) =
          some (Json.obj (JsonObj.cons k v tl), ext)
        rw [buildPy_eq hwf.1]
termination_by v _ _ _ _ _ => sizeOf v
/-- Round trip of a nonempty item list terminated by the closing
bracket. -/
theorem parseArrItems_dumps : ∀ (x : Json) (tl : JsonList),
    JsonList.wf (.cons x tl) = true → ∀ (f : Nat), listFuel (.cons x tl) ≤ f →
    ∀ (ext : List Char),
    parseArrItems f (JsonList.dumps (.cons x tl) ++ ']' :: ext) = some (.cons x tl, ext)
  | x, tl, hwf, f, hf, ext => by
    rw [listFuel] at hf
    rw [JsonList.wf, Bool.and_eq_true] at hwf
    cases f with
    | zero => omega
    | succ g =>
      have hgx : jsonFuel x ≤ g := by omega
      cases tl with
      | nil =>
        rw [show JsonList.dumps (.cons x .nil) = Json.dumps x from by rw [JsonList.dumps]]
        simp only [parseArrItems]
        rw [parseVal_dumps x hwf.1 g hgx (']' :: ext) rfl]
        rfl
      | cons y tl2 =>
        have hgtl : listFuel (.cons y tl2) ≤ g := by omega
        have hwfy : Json.wf y = true := by
          rw [JsonList.wf, Bool.and_eq_true] at hwf
          exact hwf.2.1
        obtain ⟨sfx, hsfx⟩ := listDumps_shape y tl2
        obtain ⟨c, t, hy, hws, _⟩ := dumps_head y hwfy
        rw [show JsonList.dumps (.cons x (.cons y tl2)) =
          Json.dumps x ++ ',' :: ' ' :: JsonList.dumps (.cons y tl2) from by
          rw [JsonList.dumps]]
        rw [show (Json.dumps x ++ ',' :: ' ' :: JsonList.dumps (.cons y tl2)) ++ ']' :: ext =
          Json.dumps x ++ ',' :: ' ' :: (JsonList.dumps (.cons y tl2) ++ ']' :: ext) from by
          simp]
        simp only [parseArrItems]
        rw [parseVal_dumps x hwf.1 g hgx (',' :: ' ' :: (JsonList.dumps (.cons y tl2) ++
          ']' :: ext)) rfl]
        show (match parseArrItems g (skipWs (JsonList.dumps (.cons y tl2) ++ ']' :: ext)) with
          | some (tl, r3) => some (JsonList.cons x tl, r3)
          | none => none) = some (JsonList.cons x (JsonList.cons y tl2), ext)
        rw [show skipWs (JsonList.dumps (.cons y tl2) ++ ']' :: ext) =
          JsonList.dumps (.cons y tl2) ++ ']' :: ext from by
          rw [hsfx, hy, List.cons_append, List.cons_append]
          exact skipWs_not_ws hws]
        rw [parseArrItems_dumps y tl2 hwf.2 g hgtl ext]
termination_by x tl _ _ _ _ => 1 + sizeOf x + sizeOf tl
/-- Round trip of a nonempty entry list terminated by the closing
brace. -/
theorem parseObjItems_dumps : ∀ (k : List Char) (v : Json) (tl : JsonObj),
    JsonObj.wf (.cons k v tl) = true → ∀ (f : Nat), objFuel (.cons k v tl) ≤ f →
    ∀ (ext : List Char),
    parseObjItems f (JsonObj.dumps (.cons k v tl) ++ '}' :: ext) = some (.cons k v tl, ext)
  | k, v, tl, hwf, f, hf, ext => by
    rw [objFuel] at hf
    rw [JsonObj.wf, Bool.and_eq_true] at hwf
    cases f with
    | zero => omega
    | succ g =>
      have hgv : jsonFuel v ≤ g := by omega
      obtain ⟨cv, tv, hv, hwsv, _⟩ := dumps_head v hwf.1
      cases tl with
      | nil =>
        rw [show JsonObj.dumps (.cons k v .nil) =
          '"' :: (escape k ++ '"' :: ':' :: ' ' :: Json.dumps v) from by rw [JsonObj.dumps]]
        rw [show ('"' :: (escape k ++ '"' :: ':' :: ' ' :: Json.dumps v)) ++ '}' :: ext =
          '"' :: (escape k ++ '"' :: (':' :: ' ' :: (Json.dumps v ++ '}' :: ext))) from by
          simp]
        simp only [parseObjItems]
        rw [parseStringBody_escape k _ (':' :: ' ' :: (Json.dumps v ++ '}' :: ext)) (by
          have := escape_length k
          simp only [List.length_append, List.length_cons]
          omega)]
        show (match parseVal g (skipWs (Json.dumps v ++ '}' :: ext)) with
          | none => none
          | some (v2, r3) =>
            match skipWs r3 with
            | ',' :: r4 =>
              match parseObjItems g (skipWs r4) with
              | some (tl2, r5) => some (JsonObj.cons k v2 tl2, r5)
              | none => none
            | '}' :: r4 => some (JsonObj.cons k v2 JsonObj.nil, r4)
            | _ => none) = some (JsonObj.cons k v JsonObj.nil, ext)
        rw [show skipWs (Json.dumps v ++ '}' :: ext) = Json.dumps v ++ '}' :: ext from by
          rw [hv, List.cons_append]
          exact skipWs_not_ws hwsv]
        rw [parseVal_dumps v hwf.1 g hgv ('}' :: ext) rfl]
        rfl
      | cons k2 v2 tl2 =>
        have hgtl : objFuel (.cons k2 v2 tl2) ≤ g := by omega
        rw [show JsonObj.dumps (.cons k v (.cons k2 v2 tl2)) =
          ('"' :: (escape k ++ '"' :: ':' :: ' ' :: Json.dumps v)) ++
            ',' :: ' ' :: JsonObj.dumps (.cons k2 v2 tl2) from by rw [JsonObj.dumps]]
        rw [show (('"' :: (escape k ++ '"' :: ':' :: ' ' :: Json.dumps v)) ++
            ',' :: ' ' :: JsonObj.dumps (.cons k2 v2 tl2)) ++ '}' :: ext =
          '"' :: (escape k ++ '"' :: (':' :: ' ' :: (Json.dumps v ++
            ',' :: ' ' :: (JsonObj.dumps (.cons k2 v2 tl2) ++ '}' :: ext)))) from by
          simp]
        simp only [parseObjItems]
        rw [parseStringBody_escape k _ (':' :: ' ' :: (Json.dumps v ++
          ',' :: ' ' :: (JsonObj.dumps (.cons k2 v2 tl2) ++ '}' :: ext))) (by
          have := escape_length k
          simp only [List.length_append, List.length_cons]
          omega)]
        show (match parseVal g (skipWs (Json.dumps v ++
            ',' :: ' ' :: (JsonObj.dumps (.cons k2 v2 tl2) ++ '}' :: ext))) with
          | none => none
          | some (v3, r3) =>
            match skipWs r3 with
            | ',' :: r4 =>
              match parseObjItems g (skipWs r4) with
              | some (tl3, r5) => some (JsonObj.cons k v3 tl3, r5)
              | none => none
            | '}' :: r4 => some (JsonObj.cons k v3 JsonObj.nil, r4)
            | _ => none) = some (JsonObj.cons k v (JsonObj.cons k2 v2 tl2), ext)
        rw [show skipWs (Json.dumps v ++
            ',' :: ' ' :: (JsonObj.dumps (.cons k2 v2 tl2) ++ '}' :: ext)) =
          Json.dumps v ++ ',' :: ' ' :: (JsonObj.dumps (.cons k2 v2 tl2) ++ '}' :: ext)
          from by
          rw [hv, List.cons_append]
          exact skipWs_not_ws hwsv]
        rw [parseVal_dumps v hwf.1 g hgv (',' :: ' ' ::
          (JsonObj.dumps (.cons k2 v2 tl2) ++ '}' :: ext)) rfl]
        show (match parseObjItems g
            (skipWs (JsonObj.dumps (.cons k2 v2 tl2) ++ '}' :: ext)) with
          | some (tl3, r5) => some (JsonObj.cons k v tl3, r5)
          | none => none) = some (JsonObj.cons k v (JsonObj.cons k2 v2 tl2), ext)
        have hhead2 : ∃ t0, JsonObj.dumps (.cons k2 v2 tl2) = '"' :: t0 := by
          cases tl2 with
          | nil => exact ⟨_, by rw [JsonObj.dumps]⟩
          | cons k3 v3 tl3 => exact ⟨_, by rw [JsonObj.dumps]; rw [List.cons_append]⟩
        obtain ⟨t0, ht0⟩ := hhead2
        rw [show skipWs (JsonObj.dumps (.cons k2 v2 tl2) ++ '}' :: ext) =
          JsonObj.dumps (.cons k2 v2 tl2) ++ '}' :: ext from by
          rw [ht0, List.cons_append]
          exact skipWs_not_ws rfl]
        rw [parseObjItems_dumps k2 v2 tl2 hwf.2 g hgtl ext]
termination_by k v tl _ _ _ _ => 1 + sizeOf k + sizeOf v + sizeOf tl
end

/-- Full decode of a serialized well-formed value. -/
theorem loads_dumps {v : Json} (hwf : Json.wf v = true) :
    Json.loads (Json.dumps v) = some v := by
  unfold Json.loads
  obtain ⟨c, t, hx, hws, _⟩ := dumps_head v hwf
  have hskip : skipWs (Json.dumps v) = Json.dumps v := by
    rw [hx]
    exact skipWs_not_ws hws
  rw [hskip]
  have hfuel : jsonFuel v ≤ 2 * (Json.dumps v).length + 2 := by
    have := jsonFuel_le v hwf
    omega
  have h := parseVal_dumps v hwf (2 * (Json.dumps v).length + 2) hfuel [] rfl
  rw [List.append_nil] at h
  rw [h]
  rfl

/-- String test on a value. -/
def Json.isStr : Json → Bool
  | .str _ => true
  | _ => false

/-- Integer test on a value. -/
def Json.isInt : Json → Bool
  | .int _ => true
  | _ => false

/-- Object test on a value. -/
def Json.isObj : Json → Bool
  | .obj _ => true
  | _ => false

/-- A message constructible from the data model of the spec: the four
identification fields are strings, the timestamp is an integer, and the
payload is a well-formed mapping. -/
def Message.wf (m : Message) : Bool :=
  m.version.isStr && m.id.isStr && m.source.isStr && m.type.isStr &&
    m.timestamp_ns.isInt && m.payload.isObj && m.payload.wf

/-- The six-field envelope dict `to_json` serializes, in source order. -/
def Message.envelope (m : Message) : JsonObj :=
  .cons "version".data m.version
    (.cons "id".data m.id
      (.cons "source".data m.source
        (.cons "type".data m.type
          (.cons "timestamp_ns".data m.timestamp_ns
            (.cons "payload".data m.payload .nil)))))

/-- Serialization goes through the envelope dict. -/
theorem to_json_eq (m : Message) :
    Message.to_json m = Json.dumps (Json.obj m.envelope) := rfl

/-- The envelope dict of a well-formed message is a well-formed value. -/
theorem envelope_wf (m : Message) (h : m.wf = true) :
    Json.wf (Json.obj m.envelope) = true := by
  rw [Message.wf] at h
  simp only [Bool.and_eq_true] at h
  obtain ⟨⟨⟨⟨⟨⟨h1, h2⟩, h3⟩, h4⟩, h5⟩, h6⟩, h7⟩ := h
  rw [Json.wf, Bool.and_eq_true]
  constructor
  · rfl
  · show JsonObj.wf (m.envelope) = true
    rw [Message.envelope]
    rw [JsonObj.wf, Bool.and_eq_true]
    refine ⟨?_, ?_⟩
    · cases hv : m.version with
      | str s => rw [Json.wf]
      | _ => rw [hv] at h1; simp [Json.isStr] at h1
    · rw [JsonObj.wf, Bool.and_eq_true]
      refine ⟨?_, ?_⟩
      · cases hv : m.id with
        | str s => rw [Json.wf]
        | _ => rw [hv] at h2; simp [Json.isStr] at h2
      · rw [JsonObj.wf, Bool.and_eq_true]
        refine ⟨?_, ?_⟩
        · cases hv : m.source with
          | str s => rw [Json.wf]
          | _ => rw [hv] at h3; simp [Json.isStr] at h3
        · rw [JsonObj.wf, Bool.and_eq_true]
          refine ⟨?_, ?_⟩
          · cases hv : m.type with
            | str s => rw [Json.wf]
            | _ => rw [hv] at h4; simp [Json.isStr] at h4
          · rw [JsonObj.wf, Bool.and_eq_true]
            refine ⟨?_, ?_⟩
            · cases hv : m.timestamp_ns with
              | int n => rw [Json.wf]
              | _ => rw [hv] at h5; simp [Json.isInt] at h5
            · rw [JsonObj.wf, Bool.and_eq_true]
              exact ⟨h7, rfl⟩

/-- C1 core: decoding the encoding of any data-model message is the
identity. -/
theorem Message.from_json_to_json (m : Message) (h : m.wf = true) :
    Message.from_json (Message.to_json m) = .ok m := by
  rw [to_json_eq]
  unfold Message.from_json
  rw [loads_dumps (envelope_wf m h)]
  rfl

/-- Shorthand for a string value built from a string literal. -/
def jstr (s : String) : Json := Json.str s.data

/-- C1: for every Message constructible from the data model in §3 (string
version, id, source and type; integer timestamp_ns; JSON-representable
payload mapping, covering nested mappings, large strings, Unicode text,
control characters, quotes and backslashes), decoding the encoding is the
identity: `Message.from_json (m.to_json) = m` in every field. -/
theorem C1_roundtrip (m : Message) (h : m.wf = true) :
    Message.from_json (Message.to_json m) = .ok m :=
  Message.from_json_to_json m h

/-- Concrete message exercising nested mappings, Unicode, control
characters, quotes and backslashes. -/
def c1w : Message :=
  { version := jstr "1", id := jstr "abc123", source := jstr "python",
    type := jstr "health.ping", timestamp_ns := .int 1700000000000000000,
    payload := .obj (.cons "text".data
      (jstr "hé \"quoted\" back\\slash tab\t nl\n 世界 😀")
      (.cons "nested".data
        (.obj (.cons "k".data (.arr (.cons (.int 5) (.cons .null
          (.cons (.bool true) .nil)))) .nil)) .nil)) }

theorem C1_roundtrip_witness :
    c1w.wf = true ∧ Message.from_json (Message.to_json c1w) = .ok c1w :=
  ⟨by decide, C1_roundtrip c1w (by decide)⟩

/-- C2: decoding the partial JSON object with only source and payload
fills every missing field with its default and does not fail: version is
the string one, id and type are empty strings, timestamp_ns is zero. -/
theorem C2_default_filling :
    Message.from_json "\x7b\"source\": \"partial\", \"payload\": \x7b\x7d\x7d".data =
      .ok { version := jstr "1", id := jstr "", source := jstr "partial",
            type := jstr "", timestamp_ns := .int 0, payload := .obj .nil } := by
  rfl

/-- C3: decoding fails exactly when the input is not valid JSON or its
top-level value is not a JSON object, and succeeds on every input whose
top-level value is a JSON object.  `DecodeError.invalidJson` is the
`JSONDecodeError` case and `DecodeError.notAnObject` the non-dict case;
the spec folds both into `MalformedEnvelope`. -/
theorem C3_malformed (l : List Char) :
    ((∃ m, Message.from_json l = .ok m) ↔ (∃ kvs, Json.loads l = some (Json.obj kvs))) ∧
    ((∃ e, Message.from_json l = .error e) ↔
      (Json.loads l = none ∨ ∃ v, Json.loads l = some v ∧ Json.isObj v = false)) := by
  unfold Message.from_json
  cases hl : Json.loads l with
  | none =>
    constructor
    · constructor
      · rintro ⟨m, hm⟩
        simp at hm
      · rintro ⟨kvs, hk⟩
        simp at hk
    · constructor
      · intro _
        exact Or.inl rfl
      · intro _
        exact ⟨.invalidJson, rfl⟩
  | some v =>
    cases v with
    | obj kvs =>
      constructor
      · constructor
        · intro _
          exact ⟨kvs, rfl⟩
        · rintro ⟨kvs2, hk⟩
          exact ⟨_, rfl⟩
      · constructor
        · rintro ⟨e, he⟩
          simp at he
        · rintro (h | ⟨v2, hv2, hv3⟩)
          · simp at h
          · rw [Option.some.injEq] at hv2
            subst hv2
            simp [Json.isObj] at hv3
    | null => exact ⟨⟨fun ⟨m, hm⟩ => by simp at hm, fun ⟨kvs, hk⟩ => by simp at hk⟩,
        ⟨fun _ => Or.inr ⟨.null, rfl, rfl⟩, fun _ => ⟨.notAnObject, rfl⟩⟩⟩
    | bool b => exact ⟨⟨fun ⟨m, hm⟩ => by simp at hm, fun ⟨kvs, hk⟩ => by simp at hk⟩,
        ⟨fun _ => Or.inr ⟨.bool b, rfl, rfl⟩, fun _ => ⟨.notAnObject, rfl⟩⟩⟩
    | int n => exact ⟨⟨fun ⟨m, hm⟩ => by simp at hm, fun ⟨kvs, hk⟩ => by simp at hk⟩,
        ⟨fun _ => Or.inr ⟨.int n, rfl, rfl⟩, fun _ => ⟨.notAnObject, rfl⟩⟩⟩
    | float r => exact ⟨⟨fun ⟨m, hm⟩ => by simp at hm, fun ⟨kvs, hk⟩ => by simp at hk⟩,
        ⟨fun _ => Or.inr ⟨.float r, rfl, rfl⟩, fun _ => ⟨.notAnObject, rfl⟩⟩⟩
    | str s => exact ⟨⟨fun ⟨m, hm⟩ => by simp at hm, fun ⟨kvs, hk⟩ => by simp at hk⟩,
        ⟨fun _ => Or.inr ⟨.str s, rfl, rfl⟩, fun _ => ⟨.notAnObject, rfl⟩⟩⟩
    | arr xs => exact ⟨⟨fun ⟨m, hm⟩ => by simp at hm, fun ⟨kvs, hk⟩ => by simp at hk⟩,
        ⟨fun _ => Or.inr ⟨.arr xs, rfl, rfl⟩, fun _ => ⟨.notAnObject, rfl⟩⟩⟩

/-- Lookup of an absent key yields the default, as `dict.get` does. -/
theorem JsonObj.get_of_not_hasKey : ∀ (o : JsonObj) (k : List Char) (d : Json),
    o.hasKey k = false → o.get k d = d
  | .nil, _, _, _ => rfl
  | .cons k' v tl, k, d, h => by
    rw [JsonObj.hasKey, Bool.or_eq_false_iff] at h
    rw [JsonObj.get, if_neg (by
      intro habs
      rw [habs] at h
      simp at h), JsonObj.get_of_not_hasKey tl k d h.2]

/-- C4 counterexample: an accepted JSON object whose decoded `id` field
is null — the input passes the explicit value `null` through, so the
fields are not "never null" on every accepted object. -/
theorem C4_counterexample :
    Message.from_json "\x7b\"id\": null\x7d".data =
      .ok { version := jstr "1", id := Json.null, source := jstr "",
            type := jstr "", timestamp_ns := .int 0, payload := .obj .nil } := by
  rfl

/-- C4 amended: every field that is absent from the accepted input
decodes to its non-null default (the string one for version, the empty
string for id, source and type, zero for timestamp_ns); only a field
explicitly present as JSON null decodes to null. -/
theorem C4_amended (l : List Char) (kvs : JsonObj) (m : Message)
    (hl : Json.loads l = some (Json.obj kvs))
    (hm : Message.from_json l = .ok m) :
    (kvs.hasKey "version".data = false → m.version = jstr "1") ∧
    (kvs.hasKey "id".data = false → m.id = jstr "") ∧
    (kvs.hasKey "source".data = false → m.source = jstr "") ∧
    (kvs.hasKey "type".data = false → m.type = jstr "") ∧
    (kvs.hasKey "timestamp_ns".data = false → m.timestamp_ns = Json.int 0) := by
  unfold Message.from_json at hm
  rw [hl] at hm
  simp only [Except.ok.injEq] at hm
  subst hm
  refine ⟨?_, ?_, ?_, ?_, ?_⟩ <;> intro hk <;>
    simp [JsonObj.get_of_not_hasKey kvs _ _ hk, jstr]

theorem C4_amended_witness :
    Json.loads "\x7b\x7d".data = some (Json.obj .nil) ∧
    Message.from_json "\x7b\x7d".data = .ok
      { version := jstr "1", id := jstr "", source := jstr "", type := jstr "",
        timestamp_ns := .int 0, payload := .obj .nil } ∧
    ((JsonObj.nil.hasKey "version".data = false →
        ({ version := jstr "1", id := jstr "", source := jstr "", type := jstr "",
           timestamp_ns := .int 0, payload := .obj .nil } : Message).version = jstr "1") ∧
     (JsonObj.nil.hasKey "id".data = false →
        ({ version := jstr "1", id := jstr "", source := jstr "", type := jstr "",
           timestamp_ns := .int 0, payload := .obj .nil } : Message).id = jstr "") ∧
     (JsonObj.nil.hasKey "source".data = false →
        ({ version := jstr "1", id := jstr "", source := jstr "", type := jstr "",
           timestamp_ns := .int 0, payload := .obj .nil } : Message).source = jstr "") ∧
     (JsonObj.nil.hasKey "type".data = false →
        ({ version := jstr "1", id := jstr "", source := jstr "", type := jstr "",
           timestamp_ns := .int 0, payload := .obj .nil } : Message).type = jstr "") ∧
     (JsonObj.nil.hasKey "timestamp_ns".data = false →
        ({ version := jstr "1", id := jstr "", source := jstr "", type := jstr "",
           timestamp_ns := .int 0, payload := .obj .nil } : Message).timestamp_ns =
          Json.int 0)) :=
  ⟨rfl, rfl, C4_amended "\x7b\x7d".data .nil _ rfl rfl⟩

/-- Join of lines with single newlines, the inverse-image shape of
Python's `split("\n")`. -/
def joinNl : List (List Char) → List Char
  | [] => []
  | l :: r =>
    match r with
    | [] => l
    | _ => l ++ '\n' :: joinNl r

/-- The split of any input is nonempty. -/
theorem pySplitNl_ne_nil : ∀ l : List Char, pySplitNl l ≠ []
  | [] => by simp [pySplitNl]
  | c :: t => by
    rw [pySplitNl]
    by_cases hc : c = '\n'
    · simp [hc]
    · rw [if_neg hc]
      cases hs : pySplitNl t with
      | nil => simp
      | cons h r => simp

/-- Splitting a newline-free line yields that single line. -/
theorem pySplitNl_no_nl : ∀ l : List Char, '\n' ∉ l → pySplitNl l = [l]
  | [], _ => rfl
  | c :: t, h => by
    have hc : c ≠ '\n' := by
      intro habs
      exact h (by rw [habs]; exact List.mem_cons_self _ _)
    have ht : '\n' ∉ t := fun habs => h (List.mem_cons_of_mem c habs)
    rw [pySplitNl, if_neg hc, pySplitNl_no_nl t ht]

/-- Splitting a newline-free line glued before a newline peels it off. -/
theorem pySplitNl_append : ∀ (l rest : List Char), '\n' ∉ l →
    pySplitNl (l ++ '\n' :: rest) = l :: pySplitNl rest
  | [], rest, _ => by
    rw [List.nil_append, pySplitNl, if_pos rfl]
  | c :: t, rest, h => by
    have hc : c ≠ '\n' := by
      intro habs
      exact h (by rw [habs]; exact List.mem_cons_self _ _)
    have ht : '\n' ∉ t := fun habs => h (List.mem_cons_of_mem c habs)
    rw [List.cons_append, pySplitNl, if_neg hc, pySplitNl_append t rest ht]

/-- Splitting the join of newline-free lines recovers the lines. -/
theorem pySplitNl_joinNl : ∀ lines : List (List Char), lines ≠ [] →
    (∀ l ∈ lines, '\n' ∉ l) → pySplitNl (joinNl lines) = lines
  | [], h, _ => absurd rfl h
  | [l], _, hnl => by
    rw [show joinNl [l] = l from rfl]
    exact pySplitNl_no_nl l (hnl l (List.mem_cons_self _ _))
  | l :: l2 :: r, _, hnl => by
    rw [show joinNl (l :: l2 :: r) = l ++ '\n' :: joinNl (l2 :: r) from rfl]
    rw [pySplitNl_append l _ (hnl l (List.mem_cons_self _ _))]
    rw [pySplitNl_joinNl (l2 :: r) (by simp)
      (fun x hx => hnl x (List.mem_cons_of_mem l hx))]

/-- The join of nonempty lines is nonempty. -/
theorem joinNl_ne_nil : ∀ lines : List (List Char), lines ≠ [] →
    (∀ l ∈ lines, l ≠ []) → joinNl lines ≠ []
  | [], h, _ => absurd rfl h
  | [l], _, hne => by
    rw [show joinNl [l] = l from rfl]
    exact hne l (List.mem_cons_self _ _)
  | l :: l2 :: r, _, hne => by
    rw [show joinNl (l :: l2 :: r) = l ++ '\n' :: joinNl (l2 :: r) from rfl]
    cases l with
    | nil => simp
    | cons c t => simp

/-- Behavior of `send` when the spawned process exits with status zero
producing the given streams. -/
theorem send_completed_zero (c : Client) (run : List String → Option (List Char) → RunOutcome)
    (mt : List Char) (pl : Json) (src out err : List Char)
    (hrun : ∀ a s, run a s = .completed 0 out err) :
    Client.send c run mt pl src =
      (if pyStrip out ≠ [] then
        match Message.from_json ((pySplitNl (pyStrip out)).getLastD []) with
        | .ok m => .ok m
        | .error e => .error (.decodeFailed e)
      else .ok {}) := by
  unfold Client.send Client.call
  simp only [hrun]
  rfl

/-- C5: when the tool process exits with status zero after emitting
several non-empty output lines whose final line is a well-formed
envelope, `send` returns the Message decoded from the last line only;
earlier lines are ignored. -/
theorem C5_last_line (c : Client) (run : List String → Option (List Char) → RunOutcome)
    (mt : List Char) (pl : Json) (src out err : List Char)
    (lines : List (List Char)) (m : Message)
    (hrun : ∀ a s, run a s = .completed 0 out err)
    (hstrip : pyStrip out = joinNl lines)
    (hne : lines ≠ [])
    (hlines : ∀ l ∈ lines, l ≠ [] ∧ '\n' ∉ l)
    (hm : Message.from_json (lines.getLastD []) = .ok m) :
    Client.send c run mt pl src = .ok m := by
  rw [send_completed_zero c run mt pl src out err hrun, hstrip]
  rw [if_pos (joinNl_ne_nil lines hne (fun l hl => (hlines l hl).1))]
  rw [pySplitNl_joinNl lines hne (fun l hl => (hlines l hl).2)]
  rw [hm]

theorem C5_last_line_witness :
    Message.from_json (["log line".data,
      "\x7b\"id\": \"r1\", \"type\": \"health.pong\"\x7d".data].getLastD []) =
      .ok { version := jstr "1", id := jstr "r1", source := jstr "",
            type := jstr "health.pong", timestamp_ns := .int 0, payload := .obj .nil } ∧
    Client.send ⟨"b".data, "30.0".data⟩
      (fun _ _ => .completed 0
        "log line\n\x7b\"id\": \"r1\", \"type\": \"health.pong\"\x7d\n".data "".data)
      "health.ping".data (.obj .nil) "python".data =
      .ok { version := jstr "1", id := jstr "r1", source := jstr "",
            type := jstr "health.pong", timestamp_ns := .int 0, payload := .obj .nil } :=
  ⟨rfl, C5_last_line _ _ _ _ _ _ _
    ["log line".data, "\x7b\"id\": \"r1\", \"type\": \"health.pong\"\x7d".data] _
    (fun _ _ => rfl) (by rfl) (by simp) (by decide) rfl⟩

/-- C6: when the tool process exits with status zero and its output
strips to nothing, `send` returns a default-valued Message (version one,
empty id, source and type, zero timestamp, empty payload) rather than an
error. -/
theorem C6_empty_output (c : Client) (run : List String → Option (List Char) → RunOutcome)
    (mt : List Char) (pl : Json) (src out err : List Char)
    (hrun : ∀ a s, run a s = .completed 0 out err)
    (hempty : pyStrip out = []) :
    Client.send c run mt pl src =
      .ok { version := jstr "1", id := jstr "", source := jstr "", type := jstr "",
            timestamp_ns := .int 0, payload := .obj .nil } := by
  rw [send_completed_zero c run mt pl src out err hrun, hempty]
  rw [if_neg (by simp)]
  rfl

theorem C6_empty_output_witness :
    pyStrip "  \n\t".data = [] ∧
    Client.send ⟨"b".data, "30.0".data⟩ (fun _ _ => .completed 0 "  \n\t".data "".data)
      "health.ping".data (.obj .nil) "python".data =
      .ok { version := jstr "1", id := jstr "", source := jstr "", type := jstr "",
            timestamp_ns := .int 0, payload := .obj .nil } :=
  ⟨by decide, C6_empty_output _ _ _ _ _ _ _ (fun _ _ => rfl) (by decide)⟩

/-- C7: when the spawned process exits with nonzero status N, `call`
raises `MistError` with the trimmed error-stream text as its message, or
the generic exit-code message when that text is empty; on status zero it
returns the captured output. -/
theorem C7_exit_codes (c : Client) (run : List String → Option (List Char) → RunOutcome)
    (args : List String) (stdin : Option (List Char)) (rc : Int) (out err : List Char)
    (hrun : run args stdin = .completed rc out err) :
    (rc ≠ 0 →
      ((pyStrip err ≠ [] ∧ Client.call c run args stdin = .error (pyStrip err)) ∨
       (pyStrip err = [] ∧
         Client.call c run args stdin = .error ("exit code ".data ++ intRepr rc)))) ∧
    (rc = 0 → Client.call c run args stdin = .ok out) := by
  have hcall : Client.call c run args stdin =
      (if rc ≠ 0 then
        Except.error (if pyStrip err ≠ [] then pyStrip err
          else "exit code ".data ++ intRepr rc)
      else Except.ok out) := by
    unfold Client.call
    rw [hrun]
  rw [hcall]
  constructor
  · intro hrc
    rw [if_pos hrc]
    by_cases he : pyStrip err = []
    · right
      refine ⟨he, ?_⟩
      rw [if_neg (by simp [he])]
    · left
      refine ⟨he, ?_⟩
      rw [if_pos he]
  · intro hrc
    rw [if_neg (by simp [hrc])]

theorem C7_exit_codes_witness :
    (1 : Int) ≠ 0 ∧
    ((pyStrip "something broke\n".data ≠ [] ∧
      Client.call ⟨"b".data, "30.0".data⟩
        (fun _ _ => .completed 1 [] "something broke\n".data) ["any-arg"] none =
        .error (pyStrip "something broke\n".data)) ∨
     (pyStrip "something broke\n".data = [] ∧
      Client.call ⟨"b".data, "30.0".data⟩
        (fun _ _ => .completed 1 [] "something broke\n".data) ["any-arg"] none =
        .error ("exit code ".data ++ intRepr 1))) :=
  ⟨by decide, (C7_exit_codes ⟨"b".data, "30.0".data⟩
    (fun _ _ => .completed 1 [] "something broke\n".data) ["any-arg"] none 1 []
    "something broke\n".data rfl).1 (by decide)⟩

/-- Message with a single numeric payload entry. -/
def numMsg (v : Json) : Message :=
  { version := jstr "1", id := jstr "", source := jstr "test", type := jstr "test",
    timestamp_ns := .int 0, payload := .obj (.cons "value".data v .nil) }

/-- The numeric-payload message is data-model constructible whenever its
value is well formed. -/
theorem numMsg_wf (v : Json) (h : Json.wf v = true) : Message.wf (numMsg v) = true := by
  rw [Message.wf, numMsg]
  simp only [Json.isStr, Json.isInt, Json.isObj, Json.wf, JsonObj.wf, JsonObj.keysOk,
    JsonObj.hasKey, jstr, h]
  rfl

/-- C8: encoding then decoding preserves numeric payload values exactly:
every integer round-trips (Python integers are arbitrary precision, so in
particular all magnitudes up to and beyond `2^53`, including the 13-digit
`9999999999999`, `-42` and `0`), and every finite float round-trips with
its encoded precision — its shortest round-trip decimal text — intact
(`0.123456789012345` textually, and `1.5e10`, whose Python text is
`15000000000.0`). -/
theorem C8_numeric_fidelity :
    (∀ n : Int, Message.from_json (Message.to_json (numMsg (.int n))) =
      .ok (numMsg (.int n))) ∧
    (∀ r : List Char, scanNumber r = some (r, []) → hasExpDot r = true →
      Message.from_json (Message.to_json (numMsg (.float r))) = .ok (numMsg (.float r))) ∧
    Message.from_json (Message.to_json (numMsg (.int 9999999999999))) =
      .ok (numMsg (.int 9999999999999)) ∧
    Message.from_json (Message.to_json (numMsg (.int 9007199254740993))) =
      .ok (numMsg (.int 9007199254740993)) ∧
    Message.from_json (Message.to_json (numMsg (.int (-42)))) = .ok (numMsg (.int (-42))) ∧
    Message.from_json (Message.to_json (numMsg (.int 0))) = .ok (numMsg (.int 0)) ∧
    Message.from_json (Message.to_json (numMsg (.float "0.123456789012345".data))) =
      .ok (numMsg (.float "0.123456789012345".data)) ∧
    Message.from_json (Message.to_json (numMsg (.float "15000000000.0".data))) =
      .ok (numMsg (.float "15000000000.0".data)) := by
  have hint : ∀ n : Int, Message.from_json (Message.to_json (numMsg (.int n))) =
      .ok (numMsg (.int n)) := by
    intro n
    exact Message.from_json_to_json _ (numMsg_wf _ (by rw [Json.wf]))
  have hflo : ∀ r : List Char, scanNumber r = some (r, []) → hasExpDot r = true →
      Message.from_json (Message.to_json (numMsg (.float r))) = .ok (numMsg (.float r)) := by
    intro r h1 h2
    refine Message.from_json_to_json _ (numMsg_wf _ ?_)
    rw [Json.wf, h2, decide_eq_true h1]
    rfl
  exact ⟨hint, hflo, hint _, hint _, hint _, hint _,
    hflo _ (by decide) (by decide), hflo _ (by decide) (by decide)⟩

theorem C8_numeric_fidelity_witness :
    scanNumber "2.5e3".data = some ("2.5e3".data, []) ∧ hasExpDot "2.5e3".data = true ∧
    Message.from_json (Message.to_json (numMsg (.float "2.5e3".data))) =
      .ok (numMsg (.float "2.5e3".data)) :=
  ⟨by decide, by decide, C8_numeric_fidelity.2.1 "2.5e3".data (by decide) (by decide)⟩

/-- Binary name as the spec words it: `{tool}-{os}-{arch}{ext}` with the
os lowercased, the architecture aliases `x86_64` and `aarch64` folded to
`amd64` and `arm64`, and `.exe` appended exactly on Windows. -/
def binaryNameSpec (tool rawSystem rawMachine : String) : String :=
  let os := pyLower rawSystem
  let mach := pyLower rawMachine
  let arch := if mach = "x86_64" then "amd64" else if mach = "aarch64" then "arm64" else mach
  let ext := if os = "windows" then ".exe" else ""
  tool ++ "-" ++ os ++ "-" ++ arch ++ ext

/-- C9: for every tool name, operating system and machine architecture,
`_binary_name` returns exactly the string the spec's naming convention
describes. -/
theorem C9_binary_name (tool rawSystem rawMachine : String) :
    _binary_name tool rawSystem rawMachine = binaryNameSpec tool rawSystem rawMachine := by
  unfold _binary_name binaryNameSpec arch_map
  by_cases h1 : pyLower rawMachine = "x86_64"
  · simp [h1, List.lookup]
  · by_cases h2 : pyLower rawMachine = "amd64"
    · simp [h1, h2, List.lookup]
    · by_cases h3 : pyLower rawMachine = "arm64"
      · simp [h1, h2, h3, List.lookup]
      · by_cases h4 : pyLower rawMachine = "aarch64"
        · simp [h1, h2, h3, h4, List.lookup]
        · have hb1 : (pyLower rawMachine == "x86_64") = false := beq_eq_false_iff_ne.mpr h1
          have hb2 : (pyLower rawMachine == "amd64") = false := beq_eq_false_iff_ne.mpr h2
          have hb3 : (pyLower rawMachine == "arm64") = false := beq_eq_false_iff_ne.mpr h3
          have hb4 : (pyLower rawMachine == "aarch64") = false := beq_eq_false_iff_ne.mpr h4
          simp [List.lookup, hb1, hb2, hb3, hb4, h1, h4]

/-- Hexadecimal digit characters are printable ASCII. -/
theorem hexChar_ascii (d : Nat) :
    0x20 ≤ (hexChar d).toNat ∧ (hexChar d).toNat ≤ 0x7e := by
  unfold hexChar
  split <;> decide

/-- Digit characters are printable ASCII. -/
theorem digit_ascii {c : Char} (h : isDigitC c = true) :
    0x20 ≤ c.toNat ∧ c.toNat ≤ 0x7e := by
  simp only [isDigitC, Bool.or_eq_true, beq_iff_eq] at h
  rcases h with ((((((((h | h) | h) | h) | h) | h) | h) | h) | h) | h <;> subst h <;> decide

/-- Every character the escaper emits is printable ASCII. -/
theorem escapeChar_ascii (c x : Char) (hx : x ∈ escapeChar c) :
    0x20 ≤ x.toNat ∧ x.toNat ≤ 0x7e := by
  by_cases h1 : c = '"'
  · subst h1
    rw [show escapeChar '"' = ['\\', '"'] from rfl] at hx
    fin_cases hx <;> decide
  · by_cases h2 : c = '\\'
    · subst h2
      rw [show escapeChar '\\' = ['\\', '\\'] from rfl] at hx
      fin_cases hx <;> decide
    · by_cases h3 : c = '\n'
      · subst h3
        rw [show escapeChar '\n' = ['\\', 'n'] from rfl] at hx
        fin_cases hx <;> decide
      · by_cases h4 : c = '\r'
        · subst h4
          rw [show escapeChar '\r' = ['\\', 'r'] from rfl] at hx
          fin_cases hx <;> decide
        · by_cases h5 : c = '\t'
          · subst h5
            rw [show escapeChar '\t' = ['\\', 't'] from rfl] at hx
            fin_cases hx <;> decide
          · by_cases h6 : c.toNat = 8
            · have hc : c = '\x08' := by
                rw [← Char.ofNat_toNat c, h6]
              subst hc
              rw [show escapeChar '\x08' = ['\\', 'b'] from rfl] at hx
              fin_cases hx <;> decide
            · by_cases h7 : c.toNat = 12
              · have hc : c = '\x0c' := by
                  rw [← Char.ofNat_toNat c, h7]
                subst hc
                rw [show escapeChar '\x0c' = ['\\', 'f'] from rfl] at hx
                fin_cases hx <;> decide
              · by_cases h8 : 0x20 ≤ c.toNat ∧ c.toNat ≤ 0x7e
                · rw [show escapeChar c = [c] from by
                    simp [escapeChar, h1, h2, h3, h4, h5, h6, h7, h8]] at hx
                  fin_cases hx
                  exact h8
                · by_cases h9 : c.toNat < 0x10000
                  · rw [show escapeChar c =
                      '\\' :: 'u' :: hexChar (c.toNat / 4096 % 16) ::
                        hexChar (c.toNat / 256 % 16) :: hexChar (c.toNat / 16 % 16) ::
                        hexChar (c.toNat % 16) :: [] from by
                      simp [escapeChar, h1, h2, h3, h4, h5, h6, h7, h8, h9]] at hx
                    simp only [List.mem_cons, List.not_mem_nil, or_false] at hx
                    rcases hx with hx | hx | hx | hx | hx | hx
                    · rw [hx]; decide
                    · rw [hx]; decide
                    · rw [hx]; exact hexChar_ascii _
                    · rw [hx]; exact hexChar_ascii _
                    · rw [hx]; exact hexChar_ascii _
                    · rw [hx]; exact hexChar_ascii _
                  · rw [show escapeChar c =
                      '\\' :: 'u' ::
                        hexChar ((0xD800 + (c.toNat - 0x10000) / 0x400) / 4096 % 16) ::
                        hexChar ((0xD800 + (c.toNat - 0x10000) / 0x400) / 256 % 16) ::
                        hexChar ((0xD800 + (c.toNat - 0x10000) / 0x400) / 16 % 16) ::
                        hexChar ((0xD800 + (c.toNat - 0x10000) / 0x400) % 16) ::
                      '\\' :: 'u' ::
                        hexChar ((0xDC00 + (c.toNat - 0x10000) % 0x400) / 4096 % 16) ::
                        hexChar ((0xDC00 + (c.toNat - 0x10000) % 0x400) / 256 % 16) ::
                        hexChar ((0xDC00 + (c.toNat - 0x10000) % 0x400) / 16 % 16) ::
                        hexChar ((0xDC00 + (c.toNat - 0x10000) % 0x400) % 16) :: [] from by
                      simp [escapeChar, h1, h2, h3, h4, h5, h6, h7, h8, h9]] at hx
                    simp only [List.mem_cons, List.not_mem_nil, or_false] at hx
                    rcases hx with hx | hx | hx | hx | hx | hx | hx | hx | hx | hx | hx | hx
                    · rw [hx]; decide
                    · rw [hx]; decide
                    · rw [hx]; exact hexChar_ascii _
                    · rw [hx]; exact hexChar_ascii _
                    · rw [hx]; exact hexChar_ascii _
                    · rw [hx]; exact hexChar_ascii _
                    · rw [hx]; decide
                    · rw [hx]; decide
                    · rw [hx]; exact hexChar_ascii _
                    · rw [hx]; exact hexChar_ascii _
                    · rw [hx]; exact hexChar_ascii _
                    · rw [hx]; exact hexChar_ascii _

/-- Every character of an escaped string comes from escaping one of its
characters. -/
theorem escape_mem : ∀ (s : List Char) (x : Char), x ∈ escape s →
    ∃ c, c ∈ s ∧ x ∈ escapeChar c
  | [], _, hx => by simp [escape] at hx
  | c :: t, x, hx => by
    rw [escape] at hx
    rcases List.mem_append.mp hx with h | h
    · exact ⟨c, List.mem_cons_self c t, h⟩
    · obtain ⟨c2, hc2, hxc⟩ := escape_mem t x h
      exact ⟨c2, List.mem_cons_of_mem c hc2, hxc⟩

/-- Characters of a printed integer are printable ASCII. -/
theorem intRepr_ascii (n : Int) (x : Char) (hx : x ∈ intRepr n) :
    0x20 ≤ x.toNat ∧ x.toNat ≤ 0x7e := by
  unfold intRepr at hx
  by_cases hn : n < 0
  · rw [if_pos hn] at hx
    rcases List.mem_cons.mp hx with h | h
    · rw [h]; decide
    · exact digit_ascii (natDigits_digits n.natAbs x h)
  · rw [if_neg hn] at hx
    exact digit_ascii (natDigits_digits n.natAbs x hx)

/-- Characters of a scanned integer part are digits. -/
theorem scanInt_chars {l ip r : List Char} (h : scanInt l = some (ip, r)) :
    ∀ c ∈ ip, isDigitC c = true := by
  cases l with
  | nil => simp [scanInt] at h
  | cons c0 t =>
    by_cases h0 : c0 = '0'
    · subst h0
      simp only [scanInt, if_pos rfl] at h
      have h1 : ip = ['0'] := by
        have := congrArg Prod.fst (Option.some.inj h)
        simpa using this.symm
      subst h1
      intro c hc
      simp at hc
      subst hc
      rfl
    · by_cases hd : isDigitC c0 = true
      · simp only [scanInt, if_neg h0, hd, if_true] at h
        have h1 : ip = c0 :: (scanDigits t).1 := by
          have := congrArg Prod.fst (Option.some.inj h)
          simpa using this.symm
        subst h1
        intro c hc
        rcases List.mem_cons.mp hc with h2 | h2
        · subst h2; exact hd
        · exact scanDigits_digits t _ _ rfl c h2
      · have hd' : isDigitC c0 = false := Bool.eq_false_iff.mpr hd
        simp [scanInt, h0, hd'] at h

/-- Characters of a scanned fraction part are the dot or digits. -/
theorem scanFrac_chars {l f r : List Char} (h : scanFrac l = (f, r)) :
    ∀ c ∈ f, c = '.' ∨ isDigitC c = true := by
  cases l with
  | nil =>
    simp [scanFrac] at h
    obtain ⟨h1, _⟩ := h
    subst h1
    simp
  | cons c0 t =>
    by_cases hdot : c0 = '.'
    · subst hdot
      by_cases hnil : (scanDigits t).1 = []
      · simp only [scanFrac, if_pos rfl, hnil, if_pos rfl] at h
        obtain ⟨h1, _⟩ := pairInv h
        subst h1
        simp
      · simp only [scanFrac, if_pos rfl, if_neg hnil] at h
        obtain ⟨h1, _⟩ := pairInv h
        subst h1
        intro c hc
        rcases List.mem_cons.mp hc with h2 | h2
        · exact Or.inl h2
        · exact Or.inr (scanDigits_digits t _ _ rfl c h2)
    · simp only [scanFrac, if_neg hdot] at h
      obtain ⟨h1, _⟩ := pairInv h
      subst h1
      simp

/-- Characters of a scanned exponent part are markers, signs or digits. -/
theorem scanExp_chars {l e r : List Char} (h : scanExp l = (e, r)) :
    ∀ c ∈ e, c = 'e' ∨ c = 'E' ∨ c = '+' ∨ c = '-' ∨ isDigitC c = true := by
  cases l with
  | nil =>
    simp [scanExp] at h
    obtain ⟨h1, _⟩ := h
    subst h1
    simp
  | cons c0 t =>
    by_cases hce : c0 = 'e' ∨ c0 = 'E'
    · cases t with
      | nil =>
        simp only [scanExp, if_pos hce] at h
        obtain ⟨h1, _⟩ := pairInv h
        subst h1
        simp
      | cons s t2 =>
        by_cases hs : s = '+' ∨ s = '-'
        · by_cases hnil : (scanDigits t2).1 = []
          · simp only [scanExp, if_pos hce, if_pos hs, hnil, if_pos rfl] at h
            obtain ⟨h1, _⟩ := pairInv h
            subst h1
            simp
          · simp only [scanExp, if_pos hce, if_pos hs, if_neg hnil] at h
            obtain ⟨h1, _⟩ := pairInv h
            subst h1
            intro c hc
            rcases List.mem_cons.mp hc with h2 | h2
            · rcases hce with hce | hce
              · exact Or.inl (h2.trans hce)
              · exact Or.inr (Or.inl (h2.trans hce))
            · rcases List.mem_cons.mp h2 with h3 | h3
              · rcases hs with hs | hs
                · exact Or.inr (Or.inr (Or.inl (h3.trans hs)))
                · exact Or.inr (Or.inr (Or.inr (Or.inl (h3.trans hs))))
              · exact Or.inr (Or.inr (Or.inr (Or.inr
                  (scanDigits_digits t2 _ _ rfl c h3))))
        · by_cases hnil : (scanDigits (s :: t2)).1 = []
          · simp only [scanExp, if_pos hce, if_neg hs, hnil, if_pos rfl] at h
            obtain ⟨h1, _⟩ := pairInv h
            subst h1
            simp
          · simp only [scanExp, if_pos hce, if_neg hs, if_neg hnil] at h
            obtain ⟨h1, _⟩ := pairInv h
            subst h1
            intro c hc
            rcases List.mem_cons.mp hc with h2 | h2
            · rcases hce with hce | hce
              · exact Or.inl (h2.trans hce)
              · exact Or.inr (Or.inl (h2.trans hce))
            · exact Or.inr (Or.inr (Or.inr (Or.inr
                (scanDigits_digits (s :: t2) _ _ rfl c h2))))
    · simp only [scanExp, if_neg hce] at h
      obtain ⟨h1, _⟩ := pairInv h
      subst h1
      simp

/-- Characters of a scanned unsigned number are printable ASCII. -/
theorem scanNumTail_chars {l tok r : List Char} (h : scanNumTail l = some (tok, r)) :
    ∀ c ∈ tok, 0x20 ≤ c.toNat ∧ c.toNat ≤ 0x7e := by
  unfold scanNumTail at h
  cases hint : scanInt l with
  | none => rw [hint] at h; simp at h
  | some p =>
    obtain ⟨ip, r1⟩ := p
    rw [hint] at h
    simp only at h
    obtain ⟨h1, _⟩ := pairInv (Option.some.inj h)
    subst h1
    intro c hc
    rcases List.mem_append.mp hc with h2 | h2
    · rcases List.mem_append.mp h2 with h3 | h3
      · exact digit_ascii (scanInt_chars hint c h3)
      · rcases scanFrac_chars rfl c h3 with h4 | h4
        · rw [h4]; decide
        · exact digit_ascii h4
    · rcases scanExp_chars rfl c h2 with h4 | h4 | h4 | h4 | h4
      · rw [h4]; decide
      · rw [h4]; decide
      · rw [h4]; decide
      · rw [h4]; decide
      · exact digit_ascii h4

/-- Characters of a maximal number token are printable ASCII. -/
theorem numTok_ascii {r : List Char} (h : scanNumber r = some (r, [])) :
    ∀ c ∈ r, 0x20 ≤ c.toNat ∧ c.toNat ≤ 0x7e := by
  cases r with
  | nil => simp
  | cons c0 t =>
    by_cases hm : c0 = '-'
    · subst hm
      simp only [scanNumber, if_pos rfl] at h
      cases htl : scanNumTail t with
      | none => rw [htl] at h; simp at h
      | some p =>
        obtain ⟨tok2, r2⟩ := p
        rw [htl] at h
        simp only at h
        obtain ⟨h1, _⟩ := pairInv (Option.some.inj h)
        have h2 : tok2 = t := (List.cons.inj h1.symm).2
        subst h2
        intro c hc
        rcases List.mem_cons.mp hc with h3 | h3
        · rw [h3]; decide
        · exact scanNumTail_chars htl c h3
    · simp only [scanNumber, if_neg hm] at h
      exact scanNumTail_chars h

mutual
/-- Every character a well-formed value serializes to is printable
ASCII — `ensure_ascii=True` output contains no control characters. -/
theorem dumps_ascii : ∀ (v : Json), Json.wf v = true →
    ∀ c ∈ Json.dumps v, 0x20 ≤ c.toNat ∧ c.toNat ≤ 0x7e
  | .null, _ => by
    intro c hc
    rw [show Json.dumps .null = ['n', 'u', 'l', 'l'] from by rw [Json.dumps]] at hc
    fin_cases hc <;> decide
  | .bool true, _ => by
    intro c hc
    rw [show Json.dumps (.bool true) = ['t', 'r', 'u', 'e'] from by rw [Json.dumps]] at hc
    fin_cases hc <;> decide
  | .bool false, _ => by
    intro c hc
    rw [show Json.dumps (.bool false) = ['f', 'a', 'l', 's', 'e'] from by
      rw [Json.dumps]] at hc
    fin_cases hc <;> decide
  | .int n, _ => by
    intro c hc
    rw [show Json.dumps (.int n) = intRepr n from by rw [Json.dumps]] at hc
    exact intRepr_ascii n c hc
  | .float r, hwf => by
    rw [Json.wf, Bool.and_eq_true, decide_eq_true_eq] at hwf
    intro c hc
    rw [show Json.dumps (.float r) = r from by rw [Json.dumps]] at hc
    exact numTok_ascii hwf.1 c hc
  | .str s, _ => by
    intro c hc
    rw [show Json.dumps (.str s) = '"' :: (escape s ++ ['"']) from by
      rw [Json.dumps]] at hc
    rcases List.mem_cons.mp hc with h | h
    · rw [h]; decide
    · rcases List.mem_append.mp h with h2 | h2
      · obtain ⟨c2, _, hxc⟩ := escape_mem s c h2
        exact escapeChar_ascii c2 c hxc
      · simp at h2
        rw [h2]; decide
  | .arr .nil, _ => by
    intro c hc
    rw [show Json.dumps (.arr .nil) = ['[', ']'] from by rw [Json.dumps]] at hc
    fin_cases hc <;> decide
  | .arr (.cons x tl), hwf => by
    rw [Json.wf] at hwf
    intro c hc
    rw [show Json.dumps (.arr (.cons x tl)) =
      '[' :: (JsonList.dumps (.cons x tl) ++ [']']) from by rw [Json.dumps]] at hc
    rcases List.mem_cons.mp hc with h | h
    · rw [h]; decide
    · rcases List.mem_append.mp h with h2 | h2
      · exact dumpsList_ascii (.cons x tl) hwf c h2
      · simp at h2
        rw [h2]; decide
  | .obj .nil, _ => by
    intro c hc
    rw [show Json.dumps (.obj .nil) = ['{', '}'] from by rw [Json.dumps]] at hc
    fin_cases hc <;> decide
  | .obj (.cons k v tl), hwf => by
    rw [Json.wf, Bool.and_eq_true] at hwf
    intro c hc
    rw [show Json.dumps (.obj (.cons k v tl)) =
      '{' :: (JsonObj.dumps (.cons k v tl) ++ ['}']) from by rw [Json.dumps]] at hc
    rcases List.mem_cons.mp hc with h | h
    · rw [h]; decide
    · rcases List.mem_append.mp h with h2 | h2
      · exact dumpsObj_ascii (.cons k v tl) hwf.2 c h2
      · simp at h2
        rw [h2]; decide
/-- Item serializations of well-formed values are printable ASCII. -/
theorem dumpsList_ascii : ∀ (xs : JsonList), JsonList.wf xs = true →
    ∀ c ∈ JsonList.dumps xs, 0x20 ≤ c.toNat ∧ c.toNat ≤ 0x7e
  | .nil, _ => by
    intro c hc
    rw [show JsonList.dumps .nil = [] from by rw [JsonList.dumps]] at hc
    simp at hc
  | .cons x .nil, hwf => by
    rw [JsonList.wf, Bool.and_eq_true] at hwf
    intro c hc
    rw [show JsonList.dumps (.cons x .nil) = Json.dumps x from by
      rw [JsonList.dumps]] at hc
    exact dumps_ascii x hwf.1 c hc
  | .cons x (.cons y tl), hwf => by
    rw [JsonList.wf, Bool.and_eq_true] at hwf
    intro c hc
    rw [show JsonList.dumps (.cons x (.cons y tl)) =
      Json.dumps x ++ ',' :: ' ' :: JsonList.dumps (.cons y tl) from by
      rw [JsonList.dumps]] at hc
    rcases List.mem_append.mp hc with h | h
    · exact dumps_ascii x hwf.1 c h
    · rcases List.mem_cons.mp h with h2 | h2
      · rw [h2]; decide
      · rcases List.mem_cons.mp h2 with h3 | h3
        · rw [h3]; decide
        · exact dumpsList_ascii (.cons y tl) hwf.2 c h3
/-- Entry serializations of well-formed values are printable ASCII. -/
theorem dumpsObj_ascii : ∀ (kvs : JsonObj), JsonObj.wf kvs = true →
    ∀ c ∈ JsonObj.dumps kvs, 0x20 ≤ c.toNat ∧ c.toNat ≤ 0x7e
  | .nil, _ => by
    intro c hc
    rw [show JsonObj.dumps .nil = [] from by rw [JsonObj.dumps]] at hc
    simp at hc
  | .cons k v .nil, hwf => by
    rw [JsonObj.wf, Bool.and_eq_true] at hwf
    intro c hc
    rw [show JsonObj.dumps (.cons k v .nil) =
      '"' :: (escape k ++ '"' :: ':' :: ' ' :: Json.dumps v) from by
      rw [JsonObj.dumps]] at hc
    rcases List.mem_cons.mp hc with h | h
    · rw [h]; decide
    · rcases List.mem_append.mp h with h2 | h2
      · obtain ⟨c2, _, hxc⟩ := escape_mem k c h2
        exact escapeChar_ascii c2 c hxc
      · rcases List.mem_cons.mp h2 with h3 | h3
        · rw [h3]; decide
        · rcases List.mem_cons.mp h3 with h4 | h4
          · rw [h4]; decide
          · rcases List.mem_cons.mp h4 with h5 | h5
            · rw [h5]; decide
            · exact dumps_ascii v hwf.1 c h5
  | .cons k v (.cons k2 v2 tl), hwf => by
    rw [JsonObj.wf, Bool.and_eq_true] at hwf
    intro c hc
    rw [show JsonObj.dumps (.cons k v (.cons k2 v2 tl)) =
      ('"' :: (escape k ++ '"' :: ':' :: ' ' :: Json.dumps v)) ++
        ',' :: ' ' :: JsonObj.dumps (.cons k2 v2 tl) from by rw [JsonObj.dumps]] at hc
    rcases List.mem_append.mp hc with h | h
    · rcases List.mem_cons.mp h with h1 | h1
      · rw [h1]; decide
      · rcases List.mem_append.mp h1 with h2 | h2
        · obtain ⟨c2, _, hxc⟩ := escape_mem k c h2
          exact escapeChar_ascii c2 c hxc
        · rcases List.mem_cons.mp h2 with h3 | h3
          · rw [h3]; decide
          · rcases List.mem_cons.mp h3 with h4 | h4
            · rw [h4]; decide
            · rcases List.mem_cons.mp h4 with h5 | h5
              · rw [h5]; decide
              · exact dumps_ascii v hwf.1 c h5
    · rcases List.mem_cons.mp h with h2 | h2
      · rw [h2]; decide
      · rcases List.mem_cons.mp h2 with h3 | h3
        · rw [h3]; decide
        · exact dumpsObj_ascii (.cons k2 v2 tl) hwf.2 c h3
end

/-- C10: for every message whose payload is JSON-serializable, the text
returned by `Message.to_json` contains no newline or carriage return —
newlines inside string values are escaped — so every encoded envelope
occupies exactly one line under the newline-delimited stdio framing. -/
theorem C10_single_line (m : Message) (h : m.wf = true) :
    '\n' ∉ Message.to_json m ∧ '\r' ∉ Message.to_json m := by
  constructor
  · intro hc
    rw [to_json_eq] at hc
    have hb := dumps_ascii (Json.obj m.envelope) (envelope_wf m h) '\n' hc
    exact absurd hb.1 (by decide)
  · intro hc
    rw [to_json_eq] at hc
    have hb := dumps_ascii (Json.obj m.envelope) (envelope_wf m h) '\r' hc
    exact absurd hb.1 (by decide)

/-- A message whose payload string holds a raw newline and carriage
return. -/
def c10w : Message :=
  { payload := .obj (.cons "text".data (jstr "line1\nline2\rend") .nil) }

theorem C10_single_line_witness :
    c10w.wf = true ∧ '\n' ∉ Message.to_json c10w ∧ '\r' ∉ Message.to_json c10w :=
  ⟨by decide, C10_single_line c10w (by decide)⟩
